import Mathlib

/-!
Verification of the secondary-index maintenance core (`src/lib/src/doc/index.rs`).

A shallow embedding of the index-maintenance subsystem: the value model, the
tuple `Combinator` with its two per-column iterators, the unique / non-unique
index writers with their conditional storage protocol, and the `Document.index`
entry point with its gates and per-definition dispatch.

Machine integers (`usize`) are modelled as `Nat` with explicit wrap-around
`% 2^64` where the source's arithmetic can overflow.  Storage is modelled as a
transaction handle carrying an oracle list of operation results together with
the trace of issued operations; fallible paths return an `Outcome`
(ok / error / panic on `unwrap`).
-/

namespace SIdx

/-- `usize` modulus: the source manipulates `usize` indices (`current`,
`vals.len()`), whose subtraction wraps modulo `2^64` in release builds. -/
def USIZE : Nat := 2 ^ 64

/-- Wrapping `usize` subtraction of 1, as in the source's `self.vals.len() - 1`. -/
def usizeSub1 (n : Nat) : Nat := (n + USIZE - 1) % USIZE

/-- The fragment of `crate::sql::Value` the index core inspects: it matches on
`Value::Array` and `Value::Null` and otherwise treats values opaquely; `none`
mirrors `Value::None`, and a few scalar shapes stand in for the remaining
variants. -/
inductive Value where
  | null : Value
  | none : Value
  | int : Int → Value
  | str : String → Value
  | array : List Value → Value

mutual

/-- Structural equality on values (`PartialEq for Value`), decidably. -/
def Value.decEq : (a b : Value) → Decidable (a = b)
  | .null, .null => .isTrue rfl
  | .null, .none => .isFalse fun h => Value.noConfusion h
  | .null, .int _ => .isFalse fun h => Value.noConfusion h
  | .null, .str _ => .isFalse fun h => Value.noConfusion h
  | .null, .array _ => .isFalse fun h => Value.noConfusion h
  | .none, .null => .isFalse fun h => Value.noConfusion h
  | .none, .none => .isTrue rfl
  | .none, .int _ => .isFalse fun h => Value.noConfusion h
  | .none, .str _ => .isFalse fun h => Value.noConfusion h
  | .none, .array _ => .isFalse fun h => Value.noConfusion h
  | .int _, .null => .isFalse fun h => Value.noConfusion h
  | .int _, .none => .isFalse fun h => Value.noConfusion h
  | .int a, .int b =>
    if h : a = b then .isTrue (by rw [h]) else
      .isFalse (by intro hh; injection hh with e; exact h e)
  | .int _, .str _ => .isFalse fun h => Value.noConfusion h
  | .int _, .array _ => .isFalse fun h => Value.noConfusion h
  | .str _, .null => .isFalse fun h => Value.noConfusion h
  | .str _, .none => .isFalse fun h => Value.noConfusion h
  | .str _, .int _ => .isFalse fun h => Value.noConfusion h
  | .str a, .str b =>
    if h : a = b then .isTrue (by rw [h]) else
      .isFalse (by intro hh; injection hh with e; exact h e)
  | .str _, .array _ => .isFalse fun h => Value.noConfusion h
  | .array _, .null => .isFalse fun h => Value.noConfusion h
  | .array _, .none => .isFalse fun h => Value.noConfusion h
  | .array _, .int _ => .isFalse fun h => Value.noConfusion h
  | .array _, .str _ => .isFalse fun h => Value.noConfusion h
  | .array a, .array b =>
    match Value.decEqList a b with
    | .isTrue h => .isTrue (by rw [h])
    | .isFalse h => .isFalse (by intro hh; injection hh with e; exact h e)

/-- Structural equality on lists of values, decidably. -/
def Value.decEqList : (a b : List Value) → Decidable (a = b)
  | [], [] => .isTrue rfl
  | [], _ :: _ => .isFalse fun h => List.noConfusion h
  | _ :: _, [] => .isFalse fun h => List.noConfusion h
  | x :: xs, y :: ys =>
    match Value.decEq x y, Value.decEqList xs ys with
    | .isTrue h1, .isTrue h2 => .isTrue (by rw [h1, h2])
    | .isFalse h1, _ => .isFalse (by intro hh; injection hh with e1 e2; exact h1 e1)
    | .isTrue _, .isFalse h2 => .isFalse (by intro hh; injection hh with e1 e2; exact h2 e2)

end

instance : DecidableEq Value := Value.decEq

/-- `crate::sql::Thing`: (table name, record id). -/
structure Thing where
  tb : String
  id : String
deriving DecidableEq

/-- The fragment of `crate::sql::Part` the index core inspects: the source only
checks whether the last part of a column idiom is `Part::Flatten`. -/
inductive Part where
  | flatten : Part
  | field : String → Part
deriving DecidableEq

/-- `crate::sql::Idiom`: a newtype over a list of parts (a column expression). -/
structure Idiom where
  parts : List Part
deriving DecidableEq

/-- `crate::sql::index::SearchParams` (only the analyzer name is used here). -/
structure SearchParams where
  az : String
deriving DecidableEq

/-- `crate::sql::index::MTreeParams` (never inspected by this fragment). -/
structure MTreeParams where
  dimension : Nat
deriving DecidableEq

/-- `crate::sql::index::Index`: the index kind. -/
inductive Index where
  | Uniq : Index
  | Idx : Index
  | Search : SearchParams → Index
  | MTree : MTreeParams → Index
deriving DecidableEq

/-- `DefineIndexStatement`: the fields consumed by the index core. -/
structure DefineIndexStatement where
  name : String
  what : String
  cols : List Idiom
  index : Index
deriving DecidableEq

/-- `MultiValuesIterator` from the source: an iterator over the elements of an
array column, with a `done` flag and a `current` position. -/
structure MultiValuesIterator where
  vals : List Value
  done : Bool
  current : Nat
deriving DecidableEq

/-- `MultiValuesIterator::next`: `if done { false } else if current ==
vals.len() - 1 { done = true; false } else { current += 1; true }` — the
subtraction and increment are `usize` arithmetic, hence the wrap-around. -/
def MultiValuesIterator.next (m : MultiValuesIterator) : Bool × MultiValuesIterator :=
  if m.done then (false, m)
  else if m.current = usizeSub1 m.vals.length then (false, { m with done := true })
  else (true, { m with current := (m.current + 1) % USIZE })

/-- The `ValuesIterator` trait, as a closed sum: the multi-values iterator over
an array's elements, or the single-value iterator `SingleValueIterator(Value)`. -/
inductive ValuesIterator where
  | multi : MultiValuesIterator → ValuesIterator
  | single : Value → ValuesIterator
deriving DecidableEq

/-- Trait method `next`: advance if possible, reporting whether it advanced.
The single-value iterator never advances. -/
def ValuesIterator.next : ValuesIterator → Bool × ValuesIterator
  | .multi m => let (b, m') := m.next; (b, .multi m')
  | .single v => (false, .single v)

/-- Trait method `current`: the multi iterator returns
`vals.get(current).unwrap_or(&Value::Null)`; the single iterator its value. -/
def ValuesIterator.current : ValuesIterator → Value
  | .multi m => m.vals.getD m.current Value.null
  | .single v => v

/-- The per-column iterator built by the loop body of `Combinator::new`: if the
column is not flattened and its value is an array, a multi-values iterator over
the array's elements (starting at position 0, not done); otherwise a
single-value iterator on the value. -/
def mkIterator : Value × Bool → ValuesIterator
  | (v, f) =>
    if f then .single v
    else
      match v with
      | .array a => .multi ⟨a, false, 0⟩
      | _ => .single v

/-- `Combinator`: one iterator per column plus the `has_next` flag. -/
structure Combinator where
  iterators : List ValuesIterator
  has_next : Bool
deriving DecidableEq

/-- `Combinator::new`. -/
def Combinator.new (source : List (Value × Bool)) : Combinator :=
  ⟨source.map mkIterator, true⟩

/-- The loop body of `Combinator::next`: walk the iterators in order, pushing
each one's current value (before any advance), and advance the first iterator
whose advance succeeds — once the flag is set, later iterators are only read.
Returns (tuple, new has_next flag, updated iterators). -/
def combineStep : List ValuesIterator → Bool → List Value × Bool × List ValuesIterator
  | [], hasNext => ([], hasNext, [])
  | i :: rest, hasNext =>
    if hasNext then
      let (o, hn, its) := combineStep rest true
      (i.current :: o, hn, i :: its)
    else
      let (b, i') := i.next
      let (o, hn, its) := combineStep rest b
      (i.current :: o, hn, i' :: its)

/-- `Combinator::next` (`Iterator::next`): return `None` once `has_next` is
cleared; otherwise snapshot the current element of every iterator into a tuple
and advance exactly one iterator. -/
def Combinator.next (c : Combinator) : Option (List Value) × Combinator :=
  if c.has_next then
    let (o, hn, its) := combineStep c.iterators false
    (some o, ⟨its, hn⟩)
  else (none, c)

/-- Driving the `Combinator` as Rust's `for` loop does, with explicit fuel:
collect yielded tuples until the iterator reports `None` (or fuel runs out). -/
def Combinator.take : Nat → Combinator → List (List Value)
  | 0, _ => []
  | fuel + 1, c =>
    match c.next with
    | (some o, c') => o :: Combinator.take fuel c'
    | (none, _) => []

/-- `Indexable::new`: pair each extracted value with the flatten flag of its
column — whether the column idiom's last part is `Part::Flatten`. -/
def Indexable.new (vals : List Value) (ix : DefineIndexStatement) : List (Value × Bool) :=
  (vals.zip ix.cols).map fun p => (p.1, decide (p.2.parts.getLast? = some Part.flatten))

/-- The tuples produced for one extracted-value list: `Indexable::new` followed
by the `Combinator` run (Rust's `for n in i`), with explicit fuel. -/
def Indexable.tuples (vals : List Value) (ix : DefineIndexStatement) (fuel : Nat) :
    List (List Value) :=
  Combinator.take fuel (Combinator.new (Indexable.new vals ix))

/-- The error variants of `crate::err::Error` this fragment constructs or
matches on; `Other` stands for every remaining variant (storage failures,
expression-evaluation failures, ...), which the fragment never inspects. -/
inductive Error where
  | TxConditionNotMet : Error
  | IndexExists : Thing → String → String → Error
  | FeatureNotYetImplemented : String → Error
  | Other : Nat → Error
deriving DecidableEq

/-- Modelled from the spec: `Array::is_all_none_or_null` (defined in
`sql/array.rs`, outside this fragment) — whether every component of the tuple
is `NULL`/`NONE`. -/
def is_all_none_or_null (t : List Value) : Bool :=
  t.all fun v =>
    match v with
    | .null => true
    | .none => true
    | _ => false

/-- Modelled from the spec: the printable form of a value (`Display for Value`
lives outside this fragment). `NULL`/`NONE` print literally, strings print
quoted, arrays print as a bracketed comma-separated list. -/
def Value.display : Value → String
  | .null => "NULL"
  | .none => "NONE"
  | .int i => toString i
  | .str s => "'" ++ s ++ "'"
  | .array a => "[" ++ String.intercalate ", " (a.attach.map fun v => v.1.display) ++ "]"
decreasing_by
  have h := List.sizeOf_lt_of_mem v.2
  simp only [Value.array.sizeOf_spec]
  omega

/-- Modelled from the spec: the printable form of a tuple (`Display for Array`,
outside this fragment) — the bracketed list of its components. -/
def displayTuple (t : List Value) : String :=
  "[" ++ String.intercalate ", " (t.map Value.display) ++ "]"

/-- `crate::key::index::Index`: the storage key for an index entry —
namespace, database, table, index name, the tuple (`fd`), and the optional
record id (`id`, present for non-unique indexes only). -/
structure Key where
  ns : String
  db : String
  tb : String
  ix : String
  fd : List Value
  id : Option String
deriving DecidableEq

/-- One storage operation issued by the index core: conditional delete,
conditional put, plain get, and the full-text writer's interactions. -/
inductive Op where
  | delc : Key → Option Thing → Op
  | putc : Key → Thing → Option Thing → Op
  | get : Key → Op
  | getAnalyzer : String → Op
  | ftOpen : Op
  | ftIndexDoc : Thing → Op
  | ftRemoveDoc : Thing → Op
  | ftFinish : Op
deriving DecidableEq

/-- The oracle result of one storage operation: plain success, the payload of a
`get` (the prior owner stored under the key, if any), or an error. -/
inductive OpResult where
  | ok : OpResult
  | okGet : Option Thing → OpResult
  | err : Error → OpResult
deriving DecidableEq

/-- The transaction handle (`kvs::Transaction`): an oracle list of results for
the storage operations still to come, plus the trace of operations issued so
far.  An exhausted oracle answers plain success. -/
structure Txn where
  results : List OpResult
  trace : List Op
deriving DecidableEq

/-- Issue one storage operation: record it in the trace and consume the next
oracle result. -/
def Txn.step (t : Txn) (o : Op) : OpResult × Txn :=
  match t.results with
  | [] => (.ok, { results := [], trace := t.trace ++ [o] })
  | r :: rest => (r, { results := rest, trace := t.trace ++ [o] })

/-- The outcome of a fallible operation: success, a returned error, or a Rust
panic (the source's `unwrap()` on an absent value). -/
inductive Outcome where
  | ok : Outcome
  | err : Error → Outcome
  | panicked : Outcome
deriving DecidableEq

/-- The fields of `dbs::Options` consumed by the index core. -/
structure Options where
  ns : String
  db : String
  indexes : Bool
  force : Bool
deriving DecidableEq

/-- `IndexOperation`: the options, index definition, old and new extracted
value lists, and the record id. -/
structure IndexOperation where
  opt : Options
  ix : DefineIndexStatement
  o : Option (List Value)
  n : Option (List Value)
  rid : Thing

/-- `IndexOperation::get_unique_index_key`: no record id in the key. -/
def IndexOperation.get_unique_index_key (op : IndexOperation) (v : List Value) : Key :=
  ⟨op.opt.ns, op.opt.db, op.ix.what, op.ix.name, v, Option.none⟩

/-- `IndexOperation::get_non_unique_index_key`: the record id is part of the
key. -/
def IndexOperation.get_non_unique_index_key (op : IndexOperation) (v : List Value) : Key :=
  ⟨op.opt.ns, op.opt.db, op.ix.what, op.ix.name, v, some op.rid.id⟩

/-- `IndexOperation::err_index_exists`: the `IndexExists` error carrying the
conflicting owner, the index name, and the printable form of the tuple —
the bare value for a single-element tuple (`n.first().unwrap().to_string()`),
the tuple's textual form otherwise. -/
def IndexOperation.err_index_exists (op : IndexOperation) (rid : Thing) (n : List Value) :
    Outcome :=
  .err (.IndexExists rid op.ix.name
    (match n with
     | [v] => v.display
     | _ => displayTuple n))

/-- The delete phase of `index_unique`: for each old tuple, a conditional
delete keyed on the unique key with the record as expected owner;
`TxConditionNotMet` is swallowed, any other error propagates. -/
def uniqueDeleteLoop (op : IndexOperation) : List (List Value) → Txn → Outcome × Txn
  | [], txn => (.ok, txn)
  | t :: rest, txn =>
    let (r, txn) := txn.step (.delc (op.get_unique_index_key t) (some op.rid))
    match r with
    | .err .TxConditionNotMet => uniqueDeleteLoop op rest txn
    | .err e => (.err e, txn)
    | _ => uniqueDeleteLoop op rest txn

/-- The insert phase of `index_unique`: skip all-`NULL`/`NONE` tuples; for the
rest, a conditional put expecting no prior value.  When the put fails the
conflicting key is re-read and the prior owner's id is surfaced through
`err_index_exists`; the source `unwrap()`s the read payload, so an absent
payload is a panic. -/
def uniqueInsertLoop (op : IndexOperation) : List (List Value) → Txn → Outcome × Txn
  | [], txn => (.ok, txn)
  | t :: rest, txn =>
    if is_all_none_or_null t then uniqueInsertLoop op rest txn
    else
      let (r, txn) := txn.step (.putc (op.get_unique_index_key t) op.rid Option.none)
      match r with
      | .err _ =>
        let (g, txn) := txn.step (.get (op.get_unique_index_key t))
        match g with
        | .err e => (.err e, txn)
        | .okGet (some val) => (op.err_index_exists val t, txn)
        | _ => (.panicked, txn)
      | _ => uniqueInsertLoop op rest txn

/-- `IndexOperation::index_unique`: delete the old index data, then create the
new index data. -/
def IndexOperation.index_unique (op : IndexOperation) (fuel : Nat) (txn : Txn) :
    Outcome × Txn :=
  let (r, txn) :=
    match op.o with
    | some o => uniqueDeleteLoop op (Indexable.tuples o op.ix fuel) txn
    | Option.none => (.ok, txn)
  match r with
  | .ok =>
    match op.n with
    | some n => uniqueInsertLoop op (Indexable.tuples n op.ix fuel) txn
    | Option.none => (.ok, txn)
  | r => (r, txn)

/-- The delete phase of `index_non_unique`: same protocol as the unique writer
but on the record-id-bearing key. -/
def nonUniqueDeleteLoop (op : IndexOperation) : List (List Value) → Txn → Outcome × Txn
  | [], txn => (.ok, txn)
  | t :: rest, txn =>
    let (r, txn) := txn.step (.delc (op.get_non_unique_index_key t) (some op.rid))
    match r with
    | .err .TxConditionNotMet => nonUniqueDeleteLoop op rest txn
    | .err e => (.err e, txn)
    | _ => nonUniqueDeleteLoop op rest txn

/-- The insert phase of `index_non_unique`: every tuple is put (no all-null
filter), on the record-id-bearing key; a failed put triggers the same recovery
read and `err_index_exists` diagnostic as the unique writer. -/
def nonUniqueInsertLoop (op : IndexOperation) : List (List Value) → Txn → Outcome × Txn
  | [], txn => (.ok, txn)
  | t :: rest, txn =>
    let (r, txn) := txn.step (.putc (op.get_non_unique_index_key t) op.rid Option.none)
    match r with
    | .err _ =>
      let (g, txn) := txn.step (.get (op.get_non_unique_index_key t))
      match g with
      | .err e => (.err e, txn)
      | .okGet (some val) => (op.err_index_exists val t, txn)
      | _ => (.panicked, txn)
    | _ => nonUniqueInsertLoop op rest txn

/-- `IndexOperation::index_non_unique`: delete the old index data, then create
the new index data. -/
def IndexOperation.index_non_unique (op : IndexOperation) (fuel : Nat) (txn : Txn) :
    Outcome × Txn :=
  let (r, txn) :=
    match op.o with
    | some o => nonUniqueDeleteLoop op (Indexable.tuples o op.ix fuel) txn
    | Option.none => (.ok, txn)
  match r with
  | .ok =>
    match op.n with
    | some n => nonUniqueInsertLoop op (Indexable.tuples n op.ix fuel) txn
    | Option.none => (.ok, txn)
  | r => (r, txn)

/-- Modelled from the spec: `IndexOperation::index_full_text` delegates to the
full-text backend (`crate::idx::ft::FtIndex`), whose code is outside this
fragment — resolve the analyzer by name, open the index in write mode, then
`index_document` when new values are present and `remove_document` otherwise,
and `finish`; every step can fail and its error propagates. -/
def IndexOperation.index_full_text (op : IndexOperation) (txn : Txn) : Outcome × Txn :=
  let (r, txn) := txn.step (.getAnalyzer (match op.ix.index with
    | .Search p => p.az
    | _ => ""))
  match r with
  | .err e => (.err e, txn)
  | _ =>
    let (r, txn) := txn.step .ftOpen
    match r with
    | .err e => (.err e, txn)
    | _ =>
      let (r, txn) :=
        match op.n with
        | some _ => txn.step (.ftIndexDoc op.rid)
        | Option.none => txn.step (.ftRemoveDoc op.rid)
      match r with
      | .err e => (.err e, txn)
      | _ =>
        let (r, txn) := txn.step .ftFinish
        match r with
        | .err e => (.err e, txn)
        | _ => (.ok, txn)

/-- Modelled from the spec: a record view (`CursorDoc`) — absent for inserts
(old) or deletes (new); when present, it evaluates a column expression
(`Part::compute`, outside this fragment), possibly with an error. -/
def CursorDoc := Option (Idiom → Except Error Value)

/-- `build_opt_values`: `None` when the view is absent; otherwise the column
expressions evaluated in definition order, the first error propagating. -/
def build_opt_values (ix : DefineIndexStatement) (doc : CursorDoc) :
    Except Error (Option (List Value)) :=
  match doc with
  | Option.none => .ok Option.none
  | some ev => do
    let vs ← ix.cols.mapM ev
    return some vs

/-- The record under mutation (`doc::Document`) as consumed by the index core:
the two snapshots, the record id, the `changed` predicate (modelled from the
spec as a field: its code lives outside this fragment), the owning table's
`drop` flag, and the table's index definitions. -/
structure Document where
  initial : CursorDoc
  current : CursorDoc
  id : Option Thing
  changed : Bool
  tb_drop : Bool
  indexes : List DefineIndexStatement

/-- The per-definition dispatch of `Document::index`: build the
`IndexOperation` and branch on the index kind; `MTree` is unimplemented. -/
def dispatchIndex (opt : Options) (ix : DefineIndexStatement) (o n : Option (List Value))
    (rid : Thing) (fuel : Nat) (txn : Txn) : Outcome × Txn :=
  let ic : IndexOperation := ⟨opt, ix, o, n, rid⟩
  match ix.index with
  | .Uniq => ic.index_unique fuel txn
  | .Idx => ic.index_non_unique fuel txn
  | .Search _ => ic.index_full_text txn
  | .MTree _ => (.err (.FeatureNotYetImplemented "MTree indexing"), txn)

/-- The per-definition loop of `Document::index`: compute old and new
extracted values, and when forced or changed run the dispatch, stopping at the
first error. -/
def indexLoop (opt : Options) (doc : Document) (rid : Thing) (fuel : Nat) :
    List DefineIndexStatement → Txn → Outcome × Txn
  | [], txn => (.ok, txn)
  | ix :: rest, txn =>
    match build_opt_values ix doc.initial with
    | .error e => (.err e, txn)
    | .ok o =>
      match build_opt_values ix doc.current with
      | .error e => (.err e, txn)
      | .ok n =>
        if opt.force ∨ o ≠ n then
          match dispatchIndex opt ix o n rid fuel txn with
          | (.ok, txn) => indexLoop opt doc rid fuel rest txn
          | r => r
        else indexLoop opt doc rid fuel rest txn

/-- `Document::index` (the `maintain` entry point): the three gates — indexes
globally suppressed, unforced and unchanged, table is a view — then the
record-id `unwrap` and the per-definition loop. -/
def Document.index (doc : Document) (opt : Options) (fuel : Nat) (txn : Txn) :
    Outcome × Txn :=
  if !opt.indexes then (.ok, txn)
  else if !opt.force && !doc.changed then (.ok, txn)
  else if doc.tb_drop then (.ok, txn)
  else
    match doc.id with
    | Option.none => (.panicked, txn)
    | some rid => indexLoop opt doc rid fuel doc.indexes txn

/-- The number of successful advances an iterator still has: a live multi
iterator can advance to the end of its array, everything else is stuck. -/
def ValuesIterator.capacity : ValuesIterator → Nat
  | .multi m => if m.done then 0 else m.vals.length - 1 - m.current
  | .single _ => 0

/-- Well-formed iterator state: a multi iterator ranges over a nonempty array,
within bounds, with a length below the `usize` modulus. -/
def ValuesIterator.Wf : ValuesIterator → Prop
  | .multi m => m.vals ≠ [] ∧ m.current < m.vals.length ∧ m.vals.length < USIZE
  | .single _ => True

/-- Total remaining advances across a column list. -/
def totalCap (l : List ValuesIterator) : Nat := (l.map ValuesIterator.capacity).sum

/-- A column the combinator can process without the empty-array underflow: if
it is a non-flattened array, the array is nonempty (and of `usize` length). -/
def goodColumn : Value × Bool → Bool
  | (.array a, false) => !a.isEmpty && decide (a.length < USIZE)
  | _ => true

/-- The advance capacity contributed by one column: `length - 1` for a
non-flattened array, `0` otherwise. -/
def colCap : Value × Bool → Nat
  | (.array a, false) => a.length - 1
  | _ => 0

/-! ## Theorems -/

/-- C6: the Combinator creates a multi-iterator over the array's elements
exactly when the column is not flattened and its value is an array; in every
other case it creates a single-iterator that yields that value once (its
current value is the value, and it never advances). -/
theorem C6_iterator_construction :
    ∀ (v : Value) (f : Bool) (source : List (Value × Bool)),
      (∀ a, v = .array a → f = false → mkIterator (v, f) = .multi ⟨a, false, 0⟩) ∧
      (f = true → mkIterator (v, f) = .single v) ∧
      ((∀ a, v ≠ .array a) → mkIterator (v, f) = .single v) ∧
      (Combinator.new source).iterators = source.map mkIterator ∧
      (ValuesIterator.single v).current = v ∧
      (ValuesIterator.single v).next = (false, .single v) := by
  intro v f source
  refine ⟨?_, ?_, ?_, rfl, rfl, rfl⟩
  · intro a ha hf; subst ha; subst hf; rfl
  · intro hf; subst hf; cases v <;> rfl
  · intro h
    cases v with
    | array a => exact absurd rfl (h a)
    | null => cases f <;> rfl
    | none => cases f <;> rfl
    | int _ => cases f <;> rfl
    | str _ => cases f <;> rfl

/-- Witness for C6 at concrete inputs: a non-flattened array column gets the
multi-iterator, a flattened array column and a scalar column get the
single-iterator. -/
theorem C6_iterator_construction_witness :
    mkIterator (Value.array [Value.int 1], false) =
      .multi ⟨[Value.int 1], false, 0⟩ ∧
    mkIterator (Value.array [Value.int 1], true) =
      .single (Value.array [Value.int 1]) ∧
    mkIterator (Value.int 7, false) = .single (Value.int 7) :=
  ⟨(C6_iterator_construction (Value.array [Value.int 1]) false []).1 _ rfl rfl,
   (C6_iterator_construction (Value.array [Value.int 1]) true []).2.1 rfl,
   (C6_iterator_construction (Value.int 7) false []).2.2.1
     (fun _ h => Value.noConfusion h)⟩

/-- C10: when both the old and the new extracted value lists are absent, the
unique and non-unique writers issue no storage operations (the transaction,
its result oracle and its trace included, is returned untouched) and return
ok. -/
theorem C10_absent_values_no_ops :
    ∀ (opt : Options) (ix : DefineIndexStatement) (rid : Thing) (fuel : Nat) (txn : Txn),
      (IndexOperation.mk opt ix Option.none Option.none rid).index_unique fuel txn
        = (.ok, txn) ∧
      (IndexOperation.mk opt ix Option.none Option.none rid).index_non_unique fuel txn
        = (.ok, txn) :=
  fun _ _ _ _ _ => ⟨rfl, rfl⟩

/-- C2 (evaluation at the failing input): a multi-iterator over the empty
array does **not** yield one `NULL` position and stop — `vals.len() - 1`
underflows for `len() == 0`, so `next` keeps returning `true` (wrapping
`usize` semantics) and the Combinator keeps yielding `NULL` tuples: with fuel
5 it yields five tuples where the claim requires exactly one. -/
theorem C2_empty_array_iterator_diverges :
    (MultiValuesIterator.next ⟨[], false, 0⟩).1 = true ∧
    ValuesIterator.current (.multi ⟨[], false, 0⟩) = Value.null ∧
    Combinator.take 5 (Combinator.new [(Value.array [], false)]) =
      [[Value.null], [Value.null], [Value.null], [Value.null], [Value.null]] ∧
    (Combinator.take 5 (Combinator.new [(Value.array [], false)])).length ≠ 1 := by
  refine ⟨by decide, rfl, by decide, by decide⟩

/-- C1 (counterexample): two non-flattened array columns of two elements each.
The claim demands the full Cartesian product — `2 * 2 = 4` tuples — but the
Combinator yields only the 3 staircase tuples `(1,3), (2,3), (2,4)`: the
iterator of an exhausted column is never reset, so the tuple `(1,4)` never
appears. -/
theorem C1_not_cartesian_counterexample :
    Combinator.take 10 (Combinator.new
        [(Value.array [Value.int 1, Value.int 2], false),
         (Value.array [Value.int 3, Value.int 4], false)]) =
      [[Value.int 1, Value.int 3], [Value.int 2, Value.int 3],
       [Value.int 2, Value.int 4]] ∧
    (Combinator.take 10 (Combinator.new
        [(Value.array [Value.int 1, Value.int 2], false),
         (Value.array [Value.int 3, Value.int 4], false)])).length ≠ 2 * 2 := by
  refine ⟨by decide, by decide⟩

/-- C9: once the three gates pass and the write phase is reached for an index
definition of kind `MTree` (here: the first definition, with `force` set, so
`opts.force || o ≠ n` holds), `Document::index` fails with
`FeatureNotYetImplemented { feature: "MTree indexing" }` without touching the
transaction. -/
theorem C9_mtree_not_implemented :
    ∀ (doc : Document) (opt : Options) (p : MTreeParams) (ix : DefineIndexStatement)
      (rest : List DefineIndexStatement) (rid : Thing) (fuel : Nat) (txn : Txn)
      (o n : Option (List Value)),
      opt.indexes = true → opt.force = true → doc.tb_drop = false →
      doc.id = some rid → doc.indexes = ix :: rest → ix.index = .MTree p →
      build_opt_values ix doc.initial = .ok o →
      build_opt_values ix doc.current = .ok n →
      doc.index opt fuel txn =
        (.err (.FeatureNotYetImplemented "MTree indexing"), txn) := by
  intro doc opt p ix rest rid fuel txn o n hix hfo hdrop hid hixs hkind ho hn
  simp only [Document.index, hix, hfo, hdrop, hid, hixs, Bool.not_true, Bool.false_and,
    Bool.not_false, if_false, Bool.false_eq_true, if_true]
  simp only [indexLoop, ho, hn, hfo, true_or, if_true, dispatchIndex, hkind]

/-- Witness for C9: a concrete record and MTree index definition. -/
theorem C9_mtree_not_implemented_witness :
    Document.index
      ⟨Option.none, Option.none, some ⟨"person", "one"⟩, true, false,
        [⟨"idx_mt", "person", [], .MTree ⟨3⟩⟩]⟩
      ⟨"ns", "db", true, true⟩ 5 ⟨[], []⟩ =
      (.err (.FeatureNotYetImplemented "MTree indexing"), ⟨[], []⟩) :=
  C9_mtree_not_implemented _ _ ⟨3⟩ _ [] ⟨"person", "one"⟩ 5 ⟨[], []⟩
    Option.none Option.none rfl rfl rfl rfl rfl rfl rfl rfl

/-- A value that is not an array always gets the single-value iterator,
whatever the flatten flag. -/
theorem mkIterator_not_array (v : Value) (f : Bool) (h : ∀ a, v ≠ .array a) :
    mkIterator (v, f) = .single v := by
  cases v with
  | array a => exact absurd rfl (h a)
  | null => cases f <;> rfl
  | none => cases f <;> rfl
  | int _ => cases f <;> rfl
  | str _ => cases f <;> rfl

/-- Zipping non-array values with columns and building iterators yields only
single-value iterators (on the first `cols.length` values). -/
theorem map_mkIterator_zip_single (vals : List Value) (cols : List Idiom)
    (h : ∀ v ∈ vals, ∀ a, v ≠ .array a) :
    ((vals.zip cols).map fun p =>
        mkIterator (p.1, decide (p.2.parts.getLast? = some Part.flatten)))
      = (vals.take cols.length).map .single := by
  induction vals generalizing cols with
  | nil => simp
  | cons v vs ih =>
    cases cols with
    | nil => simp
    | cons c cs =>
      simp only [List.zip_cons_cons, List.map_cons, List.length_cons,
        List.take_succ_cons]
      rw [mkIterator_not_array v _ (h v (List.mem_cons_self v vs)),
        ih cs (fun w hw => h w (List.mem_cons_of_mem _ hw))]

/-- Column iterators for a list of non-array values are all single-value
iterators. -/
theorem new_iterators_all_single (vals : List Value) (ix : DefineIndexStatement)
    (h : ∀ v ∈ vals, ∀ a, v ≠ .array a) :
    (Indexable.new vals ix).map mkIterator
      = (vals.take ix.cols.length).map .single := by
  unfold Indexable.new
  rw [List.map_map]
  exact map_mkIterator_zip_single vals ix.cols h

/-- One step over a column list of single-value iterators: the tuple is the
value list itself and nothing can advance. -/
theorem combineStep_singles (vs : List Value) :
    combineStep (vs.map .single) false = (vs, false, vs.map .single) := by
  induction vs with
  | nil => rfl
  | cons v rest ih =>
    simp [combineStep, ValuesIterator.next, ValuesIterator.current, ih]

/-- A combinator whose `has_next` flag is cleared yields nothing. -/
theorem take_stuck (fuel : Nat) (c : Combinator) (h : c.has_next = false) :
    Combinator.take fuel c = [] := by
  cases fuel with
  | zero => rfl
  | succ n => unfold Combinator.take Combinator.next; rw [h]; simp

/-- A combinator over single-value iterators only yields exactly one tuple:
the list of the values. -/
theorem take_succ_singles (fuel : Nat) (vs : List Value) :
    Combinator.take (fuel + 1) ⟨vs.map .single, true⟩ = [vs] := by
  unfold Combinator.take
  unfold Combinator.next
  simp only [if_true]
  rw [combineStep_singles]
  simp [take_stuck]

/-- For scalar-only (non-array) extracted values, the Combinator yields the
single tuple of the column-paired values. -/
theorem tuples_all_scalars (vals : List Value) (ix : DefineIndexStatement) (fuel : Nat)
    (h : ∀ v ∈ vals, ∀ a, v ≠ .array a) :
    Indexable.tuples vals ix (fuel + 1) = [vals.take ix.cols.length] := by
  unfold Indexable.tuples Combinator.new
  rw [new_iterators_all_single vals ix h, take_succ_singles]

/-- The unique insert loop on a head tuple that is not all-null, whose put
fails and whose recovery read returns a prior owner: the `IndexExists`
diagnostic with the printable tuple. -/
theorem uniqueInsertLoop_conflict (op : IndexOperation) (t : List Value)
    (rest : List (List Value)) (e : Error) (pri : Thing) (results : List OpResult)
    (trace : List Op) (h : is_all_none_or_null t = false) :
    uniqueInsertLoop op (t :: rest) ⟨.err e :: .okGet (some pri) :: results, trace⟩ =
      (op.err_index_exists pri t,
       ⟨results, trace ++ [.putc (op.get_unique_index_key t) op.rid Option.none,
                           .get (op.get_unique_index_key t)]⟩) := by
  unfold uniqueInsertLoop
  rw [h]
  simp [Txn.step]

/-- C4: the unique insert phase (i) issues a conditional put exactly for the
tuples that are not all-`NULL`/`NONE`, skipping the rest, and (ii) on a failed
conditional put re-reads the conflicting key and returns `IndexExists` with
the prior owner, the index name, and the printable tuple — the bare value for
a single-element tuple, the tuple's textual form for a longer tuple. -/
theorem C4_unique_insert_skip_and_conflict :
    (∀ (op : IndexOperation) (ts : List (List Value)) (trace : List Op),
      uniqueInsertLoop op ts ⟨[], trace⟩ =
        (.ok, ⟨[], trace ++ (ts.filter (fun t => !is_all_none_or_null t)).map
          (fun t => .putc (op.get_unique_index_key t) op.rid Option.none)⟩)) ∧
    (∀ (opt : Options) (nm wh : String) (c : Idiom) (kind : Index) (rid pri : Thing)
       (v : Value) (e : Error) (results : List OpResult) (trace : List Op) (fuel : Nat),
      (∀ a, v ≠ .array a) → is_all_none_or_null [v] = false →
      ((IndexOperation.mk opt ⟨nm, wh, [c], kind⟩ Option.none (some [v]) rid).index_unique
          (fuel + 1) ⟨.err e :: .okGet (some pri) :: results, trace⟩).1 =
        .err (.IndexExists pri nm v.display)) ∧
    (∀ (opt : Options) (nm wh : String) (c1 c2 : Idiom) (kind : Index) (rid pri : Thing)
       (v w : Value) (e : Error) (results : List OpResult) (trace : List Op) (fuel : Nat),
      (∀ a, v ≠ .array a) → (∀ a, w ≠ .array a) →
      is_all_none_or_null [v, w] = false →
      ((IndexOperation.mk opt ⟨nm, wh, [c1, c2], kind⟩ Option.none (some [v, w])
            rid).index_unique
          (fuel + 1) ⟨.err e :: .okGet (some pri) :: results, trace⟩).1 =
        .err (.IndexExists pri nm (displayTuple [v, w]))) := by
  refine ⟨?_, ?_, ?_⟩
  · intro op ts
    induction ts with
    | nil => intro trace; simp [uniqueInsertLoop]
    | cons t rest ih =>
      intro trace
      by_cases h : is_all_none_or_null t = true
      · simp [uniqueInsertLoop, h, ih]
      · rw [Bool.not_eq_true] at h
        simp [uniqueInsertLoop, h, Txn.step, ih, List.append_assoc]
  · intro opt nm wh c kind rid pri v e results trace fuel hv hnull
    have ht := tuples_all_scalars [v] ⟨nm, wh, [c], kind⟩ fuel
      (by intro x hx; simp at hx; subst hx; exact hv)
    simp only [List.length_cons, List.length_nil, List.take_succ_cons,
      List.take_nil] at ht
    unfold IndexOperation.index_unique
    dsimp only
    rw [ht, uniqueInsertLoop_conflict _ _ _ _ _ _ _ hnull]
    simp [IndexOperation.err_index_exists]
  · intro opt nm wh c1 c2 kind rid pri v w e results trace fuel hv hw hnull
    have ht := tuples_all_scalars [v, w] ⟨nm, wh, [c1, c2], kind⟩ fuel
      (by intro x hx; simp at hx; rcases hx with h | h <;> subst h <;> assumption)
    simp only [List.length_cons, List.length_nil, List.take_succ_cons,
      List.take_nil] at ht
    unfold IndexOperation.index_unique
    dsimp only
    rw [ht, uniqueInsertLoop_conflict _ _ _ _ _ _ _ hnull]
    simp [IndexOperation.err_index_exists]

/-- Witness for C4: a concrete run — the all-null tuple `[NULL]` is skipped
while `[5]` is put; a conflicting put on `['Tobie']` reports the bare value;
a conflicting put on the pair `[1, 'x']` reports the tuple form. -/
theorem C4_unique_insert_skip_and_conflict_witness :
    uniqueInsertLoop ⟨⟨"ns", "db", true, true⟩, ⟨"idx", "person", [], .Uniq⟩,
        Option.none, Option.none, ⟨"person", "one"⟩⟩
        [[Value.null], [Value.int 5]] ⟨[], []⟩ =
      (.ok, ⟨[], [.putc ⟨"ns", "db", "person", "idx", [Value.int 5], Option.none⟩
        ⟨"person", "one"⟩ Option.none]⟩) ∧
    ((IndexOperation.mk ⟨"ns", "db", true, true⟩
          ⟨"idx", "person", [⟨[.field "name"]⟩], .Uniq⟩ Option.none
          (some [Value.str "Tobie"]) ⟨"person", "two"⟩).index_unique 3
        ⟨[.err .TxConditionNotMet, .okGet (some ⟨"person", "one"⟩)], []⟩).1 =
      .err (.IndexExists ⟨"person", "one"⟩ "idx" "'Tobie'") ∧
    ((IndexOperation.mk ⟨"ns", "db", true, true⟩
          ⟨"idx", "person", [⟨[.field "a"]⟩, ⟨[.field "b"]⟩], .Uniq⟩ Option.none
          (some [Value.int 1, Value.str "x"]) ⟨"person", "two"⟩).index_unique 3
        ⟨[.err (.Other 0), .okGet (some ⟨"person", "one"⟩)], []⟩).1 =
      .err (.IndexExists ⟨"person", "one"⟩ "idx" "[1, 'x']") := by
  refine ⟨?_, ?_, ?_⟩
  · have := C4_unique_insert_skip_and_conflict.1
      ⟨⟨"ns", "db", true, true⟩, ⟨"idx", "person", [], .Uniq⟩,
        Option.none, Option.none, ⟨"person", "one"⟩⟩
      [[Value.null], [Value.int 5]] []
    simpa [is_all_none_or_null, IndexOperation.get_unique_index_key] using this
  · have := C4_unique_insert_skip_and_conflict.2.1 ⟨"ns", "db", true, true⟩ "idx"
      "person" ⟨[.field "name"]⟩ .Uniq ⟨"person", "two"⟩ ⟨"person", "one"⟩
      (Value.str "Tobie") .TxConditionNotMet [] [] 2
      (fun _ h => Value.noConfusion h) (by decide)
    rw [this]
    simp [Value.display]
  · have := C4_unique_insert_skip_and_conflict.2.2 ⟨"ns", "db", true, true⟩ "idx"
      "person" ⟨[.field "a"]⟩ ⟨[.field "b"]⟩ .Uniq ⟨"person", "two"⟩ ⟨"person", "one"⟩
      (Value.int 1) (Value.str "x") (.Other 0) [] [] 2
      (fun _ h => Value.noConfusion h) (fun _ h => Value.noConfusion h) (by decide)
    rw [this]
    simp [displayTuple, Value.display, String.intercalate, String.intercalate.go]
    rfl

/-- Issuing one operation appends it to the trace, whatever the oracle says. -/
theorem Txn.step_trace (t : Txn) (o : Op) : ((t.step o).2).trace = t.trace ++ [o] := by
  unfold Txn.step; cases t.results <;> rfl

/-- The unique delete phase only appends conditional deletes on unique keys
with the record as expected owner. -/
theorem uniqueDeleteLoop_ops (op : IndexOperation) :
    ∀ (ts : List (List Value)) (txn : Txn), ∃ ds,
      ((uniqueDeleteLoop op ts txn).2).trace = txn.trace ++ ds ∧
      ∀ x ∈ ds, ∃ t, x = Op.delc (op.get_unique_index_key t) (some op.rid) := by
  intro ts
  induction ts with
  | nil => intro txn; exact ⟨[], by simp [uniqueDeleteLoop], by simp⟩
  | cons t rest ih =>
    intro txn
    unfold uniqueDeleteLoop
    rcases hstep : txn.step (.delc (op.get_unique_index_key t) (some op.rid))
      with ⟨r, txn1⟩
    have htr : txn1.trace
        = txn.trace ++ [Op.delc (op.get_unique_index_key t) (some op.rid)] := by
      have := Txn.step_trace txn (.delc (op.get_unique_index_key t) (some op.rid))
      rw [hstep] at this
      exact this
    have hcont : ∃ ds,
        ((uniqueDeleteLoop op rest txn1).2).trace = txn.trace ++ ds ∧
        ∀ x ∈ ds, ∃ t', x = Op.delc (op.get_unique_index_key t') (some op.rid) := by
      obtain ⟨ds, h1, h2⟩ := ih txn1
      refine ⟨Op.delc (op.get_unique_index_key t) (some op.rid) :: ds, ?_, ?_⟩
      · rw [h1, htr, List.append_assoc]; rfl
      · rintro x hx
        rcases List.mem_cons.mp hx with rfl | hx
        · exact ⟨t, rfl⟩
        · exact h2 x hx
    cases r with
    | ok => exact hcont
    | okGet v => exact hcont
    | err e =>
      cases e with
      | TxConditionNotMet => exact hcont
      | IndexExists th i vl =>
        exact ⟨[Op.delc (op.get_unique_index_key t) (some op.rid)], htr,
          by rintro x hx; rcases List.mem_singleton.mp hx with rfl; exact ⟨t, rfl⟩⟩
      | FeatureNotYetImplemented f =>
        exact ⟨[Op.delc (op.get_unique_index_key t) (some op.rid)], htr,
          by rintro x hx; rcases List.mem_singleton.mp hx with rfl; exact ⟨t, rfl⟩⟩
      | Other code =>
        exact ⟨[Op.delc (op.get_unique_index_key t) (some op.rid)], htr,
          by rintro x hx; rcases List.mem_singleton.mp hx with rfl; exact ⟨t, rfl⟩⟩

/-- The non-unique delete phase only appends conditional deletes on
record-id-bearing keys with the record as expected owner. -/
theorem nonUniqueDeleteLoop_ops (op : IndexOperation) :
    ∀ (ts : List (List Value)) (txn : Txn), ∃ ds,
      ((nonUniqueDeleteLoop op ts txn).2).trace = txn.trace ++ ds ∧
      ∀ x ∈ ds, ∃ t, x = Op.delc (op.get_non_unique_index_key t) (some op.rid) := by
  intro ts
  induction ts with
  | nil => intro txn; exact ⟨[], by simp [nonUniqueDeleteLoop], by simp⟩
  | cons t rest ih =>
    intro txn
    unfold nonUniqueDeleteLoop
    rcases hstep : txn.step (.delc (op.get_non_unique_index_key t) (some op.rid))
      with ⟨r, txn1⟩
    have htr : txn1.trace
        = txn.trace ++ [Op.delc (op.get_non_unique_index_key t) (some op.rid)] := by
      have := Txn.step_trace txn (.delc (op.get_non_unique_index_key t) (some op.rid))
      rw [hstep] at this
      exact this
    have hcont : ∃ ds,
        ((nonUniqueDeleteLoop op rest txn1).2).trace = txn.trace ++ ds ∧
        ∀ x ∈ ds, ∃ t', x = Op.delc (op.get_non_unique_index_key t') (some op.rid) := by
      obtain ⟨ds, h1, h2⟩ := ih txn1
      refine ⟨Op.delc (op.get_non_unique_index_key t) (some op.rid) :: ds, ?_, ?_⟩
      · rw [h1, htr, List.append_assoc]; rfl
      · rintro x hx
        rcases List.mem_cons.mp hx with rfl | hx
        · exact ⟨t, rfl⟩
        · exact h2 x hx
    cases r with
    | ok => exact hcont
    | okGet v => exact hcont
    | err e =>
      cases e with
      | TxConditionNotMet => exact hcont
      | IndexExists th i vl =>
        exact ⟨[Op.delc (op.get_non_unique_index_key t) (some op.rid)], htr,
          by rintro x hx; rcases List.mem_singleton.mp hx with rfl; exact ⟨t, rfl⟩⟩
      | FeatureNotYetImplemented f =>
        exact ⟨[Op.delc (op.get_non_unique_index_key t) (some op.rid)], htr,
          by rintro x hx; rcases List.mem_singleton.mp hx with rfl; exact ⟨t, rfl⟩⟩
      | Other code =>
        exact ⟨[Op.delc (op.get_non_unique_index_key t) (some op.rid)], htr,
          by rintro x hx; rcases List.mem_singleton.mp hx with rfl; exact ⟨t, rfl⟩⟩

/-- The unique insert phase only appends conditional puts (of the record id,
expecting no prior value) and recovery reads, all on unique keys. -/
theorem uniqueInsertLoop_ops (op : IndexOperation) :
    ∀ (ts : List (List Value)) (txn : Txn), ∃ ps,
      ((uniqueInsertLoop op ts txn).2).trace = txn.trace ++ ps ∧
      ∀ x ∈ ps, (∃ t, x = Op.putc (op.get_unique_index_key t) op.rid Option.none) ∨
        (∃ t, x = Op.get (op.get_unique_index_key t)) := by
  intro ts
  induction ts with
  | nil => intro txn; exact ⟨[], by simp [uniqueInsertLoop], by simp⟩
  | cons t rest ih =>
    intro txn
    unfold uniqueInsertLoop
    by_cases hnull : is_all_none_or_null t = true
    · rw [if_pos hnull]
      exact ih txn
    rw [if_neg hnull]
    rcases hstep : txn.step (.putc (op.get_unique_index_key t) op.rid Option.none)
      with ⟨r, txn1⟩
    have htr1 : txn1.trace
        = txn.trace ++ [Op.putc (op.get_unique_index_key t) op.rid Option.none] := by
      have := Txn.step_trace txn (.putc (op.get_unique_index_key t) op.rid Option.none)
      rw [hstep] at this; exact this
    have hcont : ∃ ps, ((uniqueInsertLoop op rest txn1).2).trace = txn.trace ++ ps ∧
        ∀ x ∈ ps, (∃ t', x = Op.putc (op.get_unique_index_key t') op.rid Option.none) ∨
          (∃ t', x = Op.get (op.get_unique_index_key t')) := by
      obtain ⟨ps, h1, h2⟩ := ih txn1
      refine ⟨Op.putc (op.get_unique_index_key t) op.rid Option.none :: ps, ?_, ?_⟩
      · rw [h1, htr1, List.append_assoc]; rfl
      · rintro x hx
        rcases List.mem_cons.mp hx with rfl | hx
        · exact .inl ⟨t, rfl⟩
        · exact h2 x hx
    cases r with
    | ok => exact hcont
    | okGet v => exact hcont
    | err e =>
      dsimp only
      rcases hg : txn1.step (.get (op.get_unique_index_key t)) with ⟨g, txn2⟩
      have htr2 : txn2.trace = txn.trace
          ++ [Op.putc (op.get_unique_index_key t) op.rid Option.none, Op.get (op.get_unique_index_key t)] := by
        have := Txn.step_trace txn1 (.get (op.get_unique_index_key t))
        rw [hg] at this
        rw [this, htr1, List.append_assoc]; rfl
      have hfin : ∃ ps, txn2.trace = txn.trace ++ ps ∧
          ∀ x ∈ ps, (∃ t', x = Op.putc (op.get_unique_index_key t') op.rid Option.none) ∨
            (∃ t', x = Op.get (op.get_unique_index_key t')) := by
        refine ⟨_, htr2, ?_⟩
        rintro x hx
        rcases List.mem_cons.mp hx with rfl | hx
        · exact .inl ⟨t, rfl⟩
        · rcases List.mem_singleton.mp hx with rfl
          exact .inr ⟨t, rfl⟩
      cases g with
      | ok => exact hfin
      | err e2 => exact hfin
      | okGet v => cases v <;> exact hfin

/-- The non-unique insert phase only appends conditional puts (of the record id,
expecting no prior value) and recovery reads, all on record-id-bearing keys. -/
theorem nonUniqueInsertLoop_ops (op : IndexOperation) :
    ∀ (ts : List (List Value)) (txn : Txn), ∃ ps,
      ((nonUniqueInsertLoop op ts txn).2).trace = txn.trace ++ ps ∧
      ∀ x ∈ ps, (∃ t, x = Op.putc (op.get_non_unique_index_key t) op.rid Option.none) ∨
        (∃ t, x = Op.get (op.get_non_unique_index_key t)) := by
  intro ts
  induction ts with
  | nil => intro txn; exact ⟨[], by simp [nonUniqueInsertLoop], by simp⟩
  | cons t rest ih =>
    intro txn
    unfold nonUniqueInsertLoop
    rcases hstep : txn.step (.putc (op.get_non_unique_index_key t) op.rid Option.none)
      with ⟨r, txn1⟩
    have htr1 : txn1.trace
        = txn.trace ++ [Op.putc (op.get_non_unique_index_key t) op.rid Option.none] := by
      have := Txn.step_trace txn (.putc (op.get_non_unique_index_key t) op.rid Option.none)
      rw [hstep] at this; exact this
    have hcont : ∃ ps, ((nonUniqueInsertLoop op rest txn1).2).trace = txn.trace ++ ps ∧
        ∀ x ∈ ps, (∃ t', x = Op.putc (op.get_non_unique_index_key t') op.rid Option.none) ∨
          (∃ t', x = Op.get (op.get_non_unique_index_key t')) := by
      obtain ⟨ps, h1, h2⟩ := ih txn1
      refine ⟨Op.putc (op.get_non_unique_index_key t) op.rid Option.none :: ps, ?_, ?_⟩
      · rw [h1, htr1, List.append_assoc]; rfl
      · rintro x hx
        rcases List.mem_cons.mp hx with rfl | hx
        · exact .inl ⟨t, rfl⟩
        · exact h2 x hx
    cases r with
    | ok => exact hcont
    | okGet v => exact hcont
    | err e =>
      dsimp only
      rcases hg : txn1.step (.get (op.get_non_unique_index_key t)) with ⟨g, txn2⟩
      have htr2 : txn2.trace = txn.trace
          ++ [Op.putc (op.get_non_unique_index_key t) op.rid Option.none, Op.get (op.get_non_unique_index_key t)] := by
        have := Txn.step_trace txn1 (.get (op.get_non_unique_index_key t))
        rw [hg] at this
        rw [this, htr1, List.append_assoc]; rfl
      have hfin : ∃ ps, txn2.trace = txn.trace ++ ps ∧
          ∀ x ∈ ps, (∃ t', x = Op.putc (op.get_non_unique_index_key t') op.rid Option.none) ∨
            (∃ t', x = Op.get (op.get_non_unique_index_key t')) := by
        refine ⟨_, htr2, ?_⟩
        rintro x hx
        rcases List.mem_cons.mp hx with rfl | hx
        · exact .inl ⟨t, rfl⟩
        · rcases List.mem_singleton.mp hx with rfl
          exact .inr ⟨t, rfl⟩
      cases g with
      | ok => exact hfin
      | err e2 => exact hfin
      | okGet v => cases v <;> exact hfin

/-- C5: within one unique or non-unique index operation, every conditional
delete of an old-tuple key is issued strictly before any conditional put of a
new-tuple key: the trace appended by the operation splits into a delete-phase
prefix made of `delc` operations only, followed by an insert-phase suffix
containing no `delc` at all. -/
theorem C5_deletes_precede_inserts :
    ∀ (op : IndexOperation) (fuel : Nat) (txn : Txn),
      (∃ ds ps, ((op.index_unique fuel txn).2).trace = txn.trace ++ ds ++ ps ∧
        (∀ x ∈ ds, ∃ t, x = Op.delc (op.get_unique_index_key t) (some op.rid)) ∧
        (∀ x ∈ ps, ∀ k c, x ≠ Op.delc k c)) ∧
      (∃ ds ps, ((op.index_non_unique fuel txn).2).trace = txn.trace ++ ds ++ ps ∧
        (∀ x ∈ ds, ∃ t, x = Op.delc (op.get_non_unique_index_key t) (some op.rid)) ∧
        (∀ x ∈ ps, ∀ k c, x ≠ Op.delc k c)) := by
  intro op fuel txn
  constructor
  · unfold IndexOperation.index_unique
    cases ho : op.o with
    | none =>
      dsimp only
      cases hn : op.n with
      | none => exact ⟨[], [], by simp, by simp, by simp⟩
      | some n =>
        obtain ⟨ps, h1, h2⟩ :=
          uniqueInsertLoop_ops op (Indexable.tuples n op.ix fuel) txn
        refine ⟨[], ps, by simpa using h1, by simp, ?_⟩
        intro x hx k c
        rcases h2 x hx with ⟨t, rfl⟩ | ⟨t, rfl⟩ <;> exact fun h => Op.noConfusion h
    | some o =>
      dsimp only
      obtain ⟨ds, hd1, hd2⟩ :=
        uniqueDeleteLoop_ops op (Indexable.tuples o op.ix fuel) txn
      rcases hd : uniqueDeleteLoop op (Indexable.tuples o op.ix fuel) txn with ⟨r, txn1⟩
      rw [hd] at hd1
      cases r with
      | ok =>
        dsimp only
        cases hn : op.n with
        | none => exact ⟨ds, [], by simpa using hd1, hd2, by simp⟩
        | some n =>
          obtain ⟨ps, h1, h2⟩ :=
            uniqueInsertLoop_ops op (Indexable.tuples n op.ix fuel) txn1
          refine ⟨ds, ps, ?_, hd2, ?_⟩
          · rw [h1, hd1, List.append_assoc]
          · intro x hx k c
            rcases h2 x hx with ⟨t, rfl⟩ | ⟨t, rfl⟩ <;> exact fun h => Op.noConfusion h
      | err e => exact ⟨ds, [], by simpa using hd1, hd2, by simp⟩
      | panicked => exact ⟨ds, [], by simpa using hd1, hd2, by simp⟩
  · unfold IndexOperation.index_non_unique
    cases ho : op.o with
    | none =>
      dsimp only
      cases hn : op.n with
      | none => exact ⟨[], [], by simp, by simp, by simp⟩
      | some n =>
        obtain ⟨ps, h1, h2⟩ :=
          nonUniqueInsertLoop_ops op (Indexable.tuples n op.ix fuel) txn
        refine ⟨[], ps, by simpa using h1, by simp, ?_⟩
        intro x hx k c
        rcases h2 x hx with ⟨t, rfl⟩ | ⟨t, rfl⟩ <;> exact fun h => Op.noConfusion h
    | some o =>
      dsimp only
      obtain ⟨ds, hd1, hd2⟩ :=
        nonUniqueDeleteLoop_ops op (Indexable.tuples o op.ix fuel) txn
      rcases hd : nonUniqueDeleteLoop op (Indexable.tuples o op.ix fuel) txn
        with ⟨r, txn1⟩
      rw [hd] at hd1
      cases r with
      | ok =>
        dsimp only
        cases hn : op.n with
        | none => exact ⟨ds, [], by simpa using hd1, hd2, by simp⟩
        | some n =>
          obtain ⟨ps, h1, h2⟩ :=
            nonUniqueInsertLoop_ops op (Indexable.tuples n op.ix fuel) txn1
          refine ⟨ds, ps, ?_, hd2, ?_⟩
          · rw [h1, hd1, List.append_assoc]
          · intro x hx k c
            rcases h2 x hx with ⟨t, rfl⟩ | ⟨t, rfl⟩ <;> exact fun h => Op.noConfusion h
      | err e => exact ⟨ds, [], by simpa using hd1, hd2, by simp⟩
      | panicked => exact ⟨ds, [], by simpa using hd1, hd2, by simp⟩

/-- Witness for C5: the decomposition at a concrete operation (old value
`"Old"`, new value `"New"` on a single-column unique index). -/
theorem C5_deletes_precede_inserts_witness :
    ∃ ds ps,
      ((IndexOperation.index_unique
          ⟨⟨"ns", "db", true, true⟩, ⟨"idx", "person", [⟨[.field "name"]⟩], .Uniq⟩,
           some [Value.str "Old"], some [Value.str "New"], ⟨"person", "one"⟩⟩
          3 ⟨[], []⟩).2).trace = ([] : List Op) ++ ds ++ ps ∧
      (∀ x ∈ ds, ∃ t, x = Op.delc
        (IndexOperation.get_unique_index_key
          ⟨⟨"ns", "db", true, true⟩, ⟨"idx", "person", [⟨[.field "name"]⟩], .Uniq⟩,
           some [Value.str "Old"], some [Value.str "New"], ⟨"person", "one"⟩⟩ t)
        (some ⟨"person", "one"⟩)) ∧
      (∀ x ∈ ps, ∀ k c, x ≠ Op.delc k c) :=
  (C5_deletes_precede_inserts
    ⟨⟨"ns", "db", true, true⟩, ⟨"idx", "person", [⟨[.field "name"]⟩], .Uniq⟩,
     some [Value.str "Old"], some [Value.str "New"], ⟨"person", "one"⟩⟩ 3 ⟨[], []⟩).1

/-- The non-unique insert loop on a head tuple whose put fails and whose
recovery read returns a prior owner: the same `IndexExists` diagnostic as the
unique path. -/
theorem nonUniqueInsertLoop_conflict (op : IndexOperation) (t : List Value)
    (rest : List (List Value)) (e : Error) (pri : Thing) (results : List OpResult)
    (trace : List Op) :
    nonUniqueInsertLoop op (t :: rest) ⟨.err e :: .okGet (some pri) :: results, trace⟩ =
      (op.err_index_exists pri t,
       ⟨results, trace ++ [.putc (op.get_non_unique_index_key t) op.rid Option.none,
                           .get (op.get_non_unique_index_key t)]⟩) := by
  unfold nonUniqueInsertLoop
  simp [Txn.step]

/-- C8: in the non-unique writer (i) every storage operation is keyed with the
record id, so no genuine cross-record conflict is possible on the conditional
put; (ii) the all-null filter is not applied on insert — every tuple receives
its conditional put; and (iii) a failed conditional put still produces the
same `IndexExists` diagnostic as the unique path. -/
theorem C8_non_unique_record_id_keys :
    (∀ (op : IndexOperation) (fuel : Nat) (txn : Txn), ∃ ops,
      ((op.index_non_unique fuel txn).2).trace = txn.trace ++ ops ∧
      ∀ x ∈ ops, ∃ k, ((∃ c, x = Op.delc k c) ∨ x = Op.putc k op.rid Option.none ∨
        x = Op.get k) ∧ k.id = some op.rid.id) ∧
    (∀ (op : IndexOperation) (ts : List (List Value)) (trace : List Op),
      nonUniqueInsertLoop op ts ⟨[], trace⟩ =
        (.ok, ⟨[], trace ++ ts.map
          (fun t => .putc (op.get_non_unique_index_key t) op.rid Option.none)⟩)) ∧
    (∀ (opt : Options) (nm wh : String) (c : Idiom) (kind : Index) (rid pri : Thing)
       (v : Value) (e : Error) (results : List OpResult) (trace : List Op) (fuel : Nat),
      (∀ a, v ≠ .array a) →
      ((IndexOperation.mk opt ⟨nm, wh, [c], kind⟩ Option.none
            (some [v]) rid).index_non_unique
          (fuel + 1) ⟨.err e :: .okGet (some pri) :: results, trace⟩).1 =
        .err (.IndexExists pri nm v.display)) := by
  refine ⟨?_, ?_, ?_⟩
  · intro op fuel txn
    unfold IndexOperation.index_non_unique
    cases ho : op.o with
    | none =>
      dsimp only
      cases hn : op.n with
      | none => exact ⟨[], by simp, by simp⟩
      | some n =>
        obtain ⟨ps, h1, h2⟩ :=
          nonUniqueInsertLoop_ops op (Indexable.tuples n op.ix fuel) txn
        refine ⟨ps, h1, ?_⟩
        intro x hx
        rcases h2 x hx with ⟨t, rfl⟩ | ⟨t, rfl⟩
        · exact ⟨op.get_non_unique_index_key t, .inr (.inl rfl), rfl⟩
        · exact ⟨op.get_non_unique_index_key t, .inr (.inr rfl), rfl⟩
    | some o =>
      dsimp only
      obtain ⟨ds, hd1, hd2⟩ :=
        nonUniqueDeleteLoop_ops op (Indexable.tuples o op.ix fuel) txn
      rcases hd : nonUniqueDeleteLoop op (Indexable.tuples o op.ix fuel) txn
        with ⟨r, txn1⟩
      rw [hd] at hd1
      have hds : ∀ x ∈ ds, ∃ k,
          ((∃ c, x = Op.delc k c) ∨ x = Op.putc k op.rid Option.none ∨ x = Op.get k) ∧
          k.id = some op.rid.id := by
        intro x hx
        obtain ⟨t, rfl⟩ := hd2 x hx
        exact ⟨op.get_non_unique_index_key t, .inl ⟨some op.rid, rfl⟩, rfl⟩
      cases r with
      | ok =>
        dsimp only
        cases hn : op.n with
        | none => exact ⟨ds, by simpa using hd1, hds⟩
        | some n =>
          obtain ⟨ps, h1, h2⟩ :=
            nonUniqueInsertLoop_ops op (Indexable.tuples n op.ix fuel) txn1
          refine ⟨ds ++ ps, ?_, ?_⟩
          · rw [h1, hd1, List.append_assoc]
          · intro x hx
            rcases List.mem_append.mp hx with hx | hx
            · exact hds x hx
            · rcases h2 x hx with ⟨t, rfl⟩ | ⟨t, rfl⟩
              · exact ⟨op.get_non_unique_index_key t, .inr (.inl rfl), rfl⟩
              · exact ⟨op.get_non_unique_index_key t, .inr (.inr rfl), rfl⟩
      | err e => exact ⟨ds, by simpa using hd1, hds⟩
      | panicked => exact ⟨ds, by simpa using hd1, hds⟩
  · intro op ts
    induction ts with
    | nil => intro trace; simp [nonUniqueInsertLoop]
    | cons t rest ih =>
      intro trace
      simp [nonUniqueInsertLoop, Txn.step, ih, List.append_assoc]
  · intro opt nm wh c kind rid pri v e results trace fuel hv
    have ht := tuples_all_scalars [v] ⟨nm, wh, [c], kind⟩ fuel
      (by intro x hx; simp at hx; subst hx; exact hv)
    simp only [List.length_cons, List.length_nil, List.take_succ_cons,
      List.take_nil] at ht
    unfold IndexOperation.index_non_unique
    dsimp only
    rw [ht, nonUniqueInsertLoop_conflict]
    simp [IndexOperation.err_index_exists]

/-- Witness for C8: a concrete non-unique maintenance run — every issued
operation carries the record id in its key; the all-`NULL` tuple still gets
its conditional put; a conflicting put reports the same diagnostic as the
unique path. -/
theorem C8_non_unique_record_id_keys_witness :
    (∃ ops,
      ((IndexOperation.index_non_unique
          ⟨⟨"n", "d", true, true⟩, ⟨"i", "t", [⟨[.field "f"]⟩], .Idx⟩,
           some [Value.int 1], some [Value.int 2], ⟨"t", "r1"⟩⟩
          3 ⟨[], []⟩).2).trace = ([] : List Op) ++ ops ∧
      ∀ x ∈ ops, ∃ k, ((∃ c, x = Op.delc k c) ∨
        x = Op.putc k (⟨"t", "r1"⟩ : Thing) Option.none ∨ x = Op.get k) ∧
        k.id = some "r1") ∧
    nonUniqueInsertLoop
        ⟨⟨"n", "d", true, true⟩, ⟨"i", "t", [⟨[.field "f"]⟩], .Idx⟩,
         Option.none, Option.none, ⟨"t", "r1"⟩⟩ [[Value.null]] ⟨[], []⟩ =
      (.ok, ⟨[], [.putc ⟨"n", "d", "t", "i", [Value.null], some "r1"⟩
        ⟨"t", "r1"⟩ Option.none]⟩) ∧
    ((IndexOperation.mk ⟨"n", "d", true, true⟩ ⟨"i", "t", [⟨[.field "f"]⟩], .Idx⟩
          Option.none (some [Value.str "Tobie"]) ⟨"t", "r2"⟩).index_non_unique 3
        ⟨[.err .TxConditionNotMet, .okGet (some ⟨"t", "r1"⟩)], []⟩).1 =
      .err (.IndexExists ⟨"t", "r1"⟩ "i" "'Tobie'") := by
  refine ⟨?_, ?_, ?_⟩
  · exact C8_non_unique_record_id_keys.1
      ⟨⟨"n", "d", true, true⟩, ⟨"i", "t", [⟨[.field "f"]⟩], .Idx⟩,
       some [Value.int 1], some [Value.int 2], ⟨"t", "r1"⟩⟩ 3 ⟨[], []⟩
  · have := C8_non_unique_record_id_keys.2.1
      ⟨⟨"n", "d", true, true⟩, ⟨"i", "t", [⟨[.field "f"]⟩], .Idx⟩,
       Option.none, Option.none, ⟨"t", "r1"⟩⟩ [[Value.null]] []
    simpa [IndexOperation.get_non_unique_index_key] using this
  · have := C8_non_unique_record_id_keys.2.2 ⟨"n", "d", true, true⟩ "i" "t"
      ⟨[.field "f"]⟩ .Idx ⟨"t", "r2"⟩ ⟨"t", "r1"⟩ (Value.str "Tobie")
      .TxConditionNotMet [] [] 2 (fun _ h => Value.noConfusion h)
    rw [this]
    simp [Value.display]

/-- Consuming one oracle result: the returned result is the default `ok` or
one of the pending results, and the pending results only shrink. -/
theorem Txn.step_results (t : Txn) (o : Op) :
    ((t.step o).1 = .ok ∨ (t.step o).1 ∈ t.results) ∧
    ∀ r ∈ ((t.step o).2).results, r ∈ t.results := by
  unfold Txn.step
  cases t.results with
  | nil => exact ⟨.inl rfl, by simp⟩
  | cons a l => exact ⟨.inr (by simp), fun r hr => by simp; exact .inr hr⟩

/-- If the pending oracle results hold no error other than
`TxConditionNotMet`, the unique delete phase succeeds (and the remaining
results still hold no other error). -/
theorem uniqueDeleteLoop_swallows (op : IndexOperation) :
    ∀ (ts : List (List Value)) (txn : Txn),
      (∀ r ∈ txn.results, ∀ e, r = .err e → e = .TxConditionNotMet) →
      (uniqueDeleteLoop op ts txn).1 = .ok ∧
      ∀ r ∈ ((uniqueDeleteLoop op ts txn).2).results, ∀ e,
        r = .err e → e = .TxConditionNotMet := by
  intro ts
  induction ts with
  | nil => intro txn h; exact ⟨rfl, h⟩
  | cons t rest ih =>
    intro txn h
    unfold uniqueDeleteLoop
    have hs := Txn.step_results txn (.delc (op.get_unique_index_key t) (some op.rid))
    rcases hstep : txn.step (.delc (op.get_unique_index_key t) (some op.rid))
      with ⟨r, txn1⟩
    rw [hstep] at hs
    have h1 : ∀ r' ∈ txn1.results, ∀ e, r' = .err e → e = .TxConditionNotMet :=
      fun r' hr' => h r' (hs.2 r' hr')
    cases r with
    | ok => exact ih txn1 h1
    | okGet v => exact ih txn1 h1
    | err e =>
      have he : e = .TxConditionNotMet := by
        rcases hs.1 with hbad | hmem
        · exact absurd hbad (by simp)
        · exact h _ hmem e rfl
      subst he
      exact ih txn1 h1

/-- Same for the non-unique delete phase. -/
theorem nonUniqueDeleteLoop_swallows (op : IndexOperation) :
    ∀ (ts : List (List Value)) (txn : Txn),
      (∀ r ∈ txn.results, ∀ e, r = .err e → e = .TxConditionNotMet) →
      (nonUniqueDeleteLoop op ts txn).1 = .ok ∧
      ∀ r ∈ ((nonUniqueDeleteLoop op ts txn).2).results, ∀ e,
        r = .err e → e = .TxConditionNotMet := by
  intro ts
  induction ts with
  | nil => intro txn h; exact ⟨rfl, h⟩
  | cons t rest ih =>
    intro txn h
    unfold nonUniqueDeleteLoop
    have hs := Txn.step_results txn (.delc (op.get_non_unique_index_key t) (some op.rid))
    rcases hstep : txn.step (.delc (op.get_non_unique_index_key t) (some op.rid))
      with ⟨r, txn1⟩
    rw [hstep] at hs
    have h1 : ∀ r' ∈ txn1.results, ∀ e, r' = .err e → e = .TxConditionNotMet :=
      fun r' hr' => h r' (hs.2 r' hr')
    cases r with
    | ok => exact ih txn1 h1
    | okGet v => exact ih txn1 h1
    | err e =>
      have he : e = .TxConditionNotMet := by
        rcases hs.1 with hbad | hmem
        · exact absurd hbad (by simp)
        · exact h _ hmem e rfl
      subst he
      exact ih txn1 h1

/-- C3: the writers' error policy — (1) `TxConditionNotMet` from a conditional
delete in the old-tuple phase is swallowed and the operation succeeds (both
writers); (2) any `put_conditional` failure during a unique insert is
converted to `IndexExists`; (3) any other delete-phase error aborts the
operation and propagates unchanged (both writers); (4)/(5) an
expression-evaluation error while extracting the old or the new values aborts
`maintain` and propagates unchanged; (6) an analyzer-lookup error in the
full-text path propagates unchanged. -/
theorem C3_error_propagation_policy :
    (∀ (opt : Options) (ix : DefineIndexStatement) (rid : Thing) (o : List Value)
       (fuel : Nat) (txn : Txn),
      (∀ r ∈ txn.results, ∀ e, r = .err e → e = .TxConditionNotMet) →
      ((IndexOperation.mk opt ix (some o) Option.none rid).index_unique fuel txn).1
          = .ok ∧
      ((IndexOperation.mk opt ix (some o) Option.none rid).index_non_unique fuel txn).1
          = .ok) ∧
    (∀ (opt : Options) (nm wh : String) (c : Idiom) (kind : Index) (rid pri : Thing)
       (v : Value) (e : Error) (results : List OpResult) (trace : List Op) (fuel : Nat),
      (∀ a, v ≠ .array a) → is_all_none_or_null [v] = false →
      ((IndexOperation.mk opt ⟨nm, wh, [c], kind⟩ Option.none (some [v]) rid).index_unique
          (fuel + 1) ⟨.err e :: .okGet (some pri) :: results, trace⟩).1 =
        .err (.IndexExists pri nm v.display)) ∧
    (∀ (opt : Options) (nm wh : String) (c : Idiom) (kind : Index) (rid : Thing)
       (v : Value) (e : Error) (results : List OpResult) (trace : List Op) (fuel : Nat),
      (∀ a, v ≠ .array a) → e ≠ .TxConditionNotMet →
      ((IndexOperation.mk opt ⟨nm, wh, [c], kind⟩ (some [v]) Option.none rid).index_unique
          (fuel + 1) ⟨.err e :: results, trace⟩).1 = .err e ∧
      ((IndexOperation.mk opt ⟨nm, wh, [c], kind⟩ (some [v])
            Option.none rid).index_non_unique
          (fuel + 1) ⟨.err e :: results, trace⟩).1 = .err e) ∧
    (∀ (doc : Document) (opt : Options) (ix : DefineIndexStatement)
       (rest : List DefineIndexStatement) (rid : Thing) (e : Error) (fuel : Nat)
       (txn : Txn),
      opt.indexes = true → opt.force = true → doc.tb_drop = false →
      doc.id = some rid → doc.indexes = ix :: rest →
      build_opt_values ix doc.initial = .error e →
      doc.index opt fuel txn = (.err e, txn)) ∧
    (∀ (doc : Document) (opt : Options) (ix : DefineIndexStatement)
       (rest : List DefineIndexStatement) (rid : Thing) (e : Error)
       (o : Option (List Value)) (fuel : Nat) (txn : Txn),
      opt.indexes = true → opt.force = true → doc.tb_drop = false →
      doc.id = some rid → doc.indexes = ix :: rest →
      build_opt_values ix doc.initial = .ok o →
      build_opt_values ix doc.current = .error e →
      doc.index opt fuel txn = (.err e, txn)) ∧
    (∀ (doc : Document) (opt : Options) (p : SearchParams) (ix : DefineIndexStatement)
       (rest : List DefineIndexStatement) (rid : Thing) (e : Error)
       (o n : Option (List Value)) (fuel : Nat) (rs : List OpResult) (tr : List Op),
      opt.indexes = true → opt.force = true → doc.tb_drop = false →
      doc.id = some rid → doc.indexes = ix :: rest → ix.index = .Search p →
      build_opt_values ix doc.initial = .ok o →
      build_opt_values ix doc.current = .ok n →
      doc.index opt fuel ⟨.err e :: rs, tr⟩ =
        (.err e, ⟨rs, tr ++ [.getAnalyzer p.az]⟩)) := by
  refine ⟨?_, ?_, ?_, ?_, ?_, ?_⟩
  · intro opt ix rid o fuel txn h
    constructor
    · have hok := (uniqueDeleteLoop_swallows
        (IndexOperation.mk opt ix (some o) Option.none rid)
        (Indexable.tuples o ix fuel) txn h).1
      unfold IndexOperation.index_unique
      dsimp only
      rcases hd : uniqueDeleteLoop (IndexOperation.mk opt ix (some o) Option.none rid)
          (Indexable.tuples o ix fuel) txn with ⟨r, txn1⟩
      rw [hd] at hok
      dsimp only at hok
      subst hok
      rfl
    · have hok := (nonUniqueDeleteLoop_swallows
        (IndexOperation.mk opt ix (some o) Option.none rid)
        (Indexable.tuples o ix fuel) txn h).1
      unfold IndexOperation.index_non_unique
      dsimp only
      rcases hd : nonUniqueDeleteLoop (IndexOperation.mk opt ix (some o) Option.none rid)
          (Indexable.tuples o ix fuel) txn with ⟨r, txn1⟩
      rw [hd] at hok
      dsimp only at hok
      subst hok
      rfl
  · intro opt nm wh c kind rid pri v e results trace fuel hv hnull
    have ht := tuples_all_scalars [v] ⟨nm, wh, [c], kind⟩ fuel
      (by intro x hx; simp at hx; subst hx; exact hv)
    simp only [List.length_cons, List.length_nil, List.take_succ_cons,
      List.take_nil] at ht
    unfold IndexOperation.index_unique
    dsimp only
    rw [ht, uniqueInsertLoop_conflict _ _ _ _ _ _ _ hnull]
    simp [IndexOperation.err_index_exists]
  · intro opt nm wh c kind rid v e results trace fuel hv hne
    have ht := tuples_all_scalars [v] ⟨nm, wh, [c], kind⟩ fuel
      (by intro x hx; simp at hx; subst hx; exact hv)
    simp only [List.length_cons, List.length_nil, List.take_succ_cons,
      List.take_nil] at ht
    constructor
    · unfold IndexOperation.index_unique
      dsimp only
      rw [ht]
      unfold uniqueDeleteLoop
      cases e with
      | TxConditionNotMet => exact absurd rfl hne
      | IndexExists a b cc => rfl
      | FeatureNotYetImplemented f => rfl
      | Other code => rfl
    · unfold IndexOperation.index_non_unique
      dsimp only
      rw [ht]
      unfold nonUniqueDeleteLoop
      cases e with
      | TxConditionNotMet => exact absurd rfl hne
      | IndexExists a b cc => rfl
      | FeatureNotYetImplemented f => rfl
      | Other code => rfl
  · intro doc opt ix rest rid e fuel txn hix hfo hdrop hid hixs ho
    simp only [Document.index, hix, hfo, hdrop, hid, hixs, Bool.not_true,
      Bool.false_and, if_false, Bool.false_eq_true, if_true]
    simp only [indexLoop, ho]
  · intro doc opt ix rest rid e o fuel txn hix hfo hdrop hid hixs ho hn
    simp only [Document.index, hix, hfo, hdrop, hid, hixs, Bool.not_true,
      Bool.false_and, if_false, Bool.false_eq_true, if_true]
    simp only [indexLoop, ho, hn]
  · intro doc opt p ix rest rid e o n fuel rs tr hix hfo hdrop hid hixs hkind ho hn
    simp only [Document.index, hix, hfo, hdrop, hid, hixs, Bool.not_true,
      Bool.false_and, if_false, Bool.false_eq_true, if_true]
    simp only [indexLoop, ho, hn, hfo, true_or, if_true, dispatchIndex, hkind,
      IndexOperation.index_full_text, Txn.step]

/-- Witness for C3: each policy at a concrete input — a `TxConditionNotMet`
delete answer is swallowed; a failed put (here failing with a plain storage
error) becomes `IndexExists`; an `Other` storage error in the delete phase
propagates; evaluation errors on the old or new snapshot propagate; an
analyzer-lookup failure propagates. -/
theorem C3_error_propagation_policy_witness :
    (((IndexOperation.mk ⟨"n", "d", true, true⟩ ⟨"i", "t", [⟨[.field "f"]⟩], .Uniq⟩
          (some [Value.int 1]) Option.none ⟨"t", "r1"⟩).index_unique 3
        ⟨[.err .TxConditionNotMet], []⟩).1 = .ok ∧
     ((IndexOperation.mk ⟨"n", "d", true, true⟩ ⟨"i", "t", [⟨[.field "f"]⟩], .Uniq⟩
          (some [Value.int 1]) Option.none ⟨"t", "r1"⟩).index_non_unique 3
        ⟨[.err .TxConditionNotMet], []⟩).1 = .ok) ∧
    ((IndexOperation.mk ⟨"n", "d", true, true⟩ ⟨"i", "t", [⟨[.field "f"]⟩], .Uniq⟩
          Option.none (some [Value.int 9]) ⟨"t", "r2"⟩).index_unique 3
        ⟨[.err (.Other 5), .okGet (some ⟨"t", "r1"⟩)], []⟩).1 =
      .err (.IndexExists ⟨"t", "r1"⟩ "i" (Value.int 9).display) ∧
    (((IndexOperation.mk ⟨"n", "d", true, true⟩ ⟨"i", "t", [⟨[.field "f"]⟩], .Uniq⟩
          (some [Value.int 1]) Option.none ⟨"t", "r1"⟩).index_unique 3
        ⟨[.err (.Other 7)], []⟩).1 = .err (.Other 7) ∧
     ((IndexOperation.mk ⟨"n", "d", true, true⟩ ⟨"i", "t", [⟨[.field "f"]⟩], .Uniq⟩
          (some [Value.int 1]) Option.none ⟨"t", "r1"⟩).index_non_unique 3
        ⟨[.err (.Other 7)], []⟩).1 = .err (.Other 7)) ∧
    Document.index
      ⟨some (fun _ => .error (.Other 3)), Option.none, some ⟨"t", "r1"⟩, true, false,
        [⟨"i", "t", [⟨[.field "f"]⟩], .Uniq⟩]⟩
      ⟨"n", "d", true, true⟩ 5 ⟨[], []⟩ = (.err (.Other 3), ⟨[], []⟩) ∧
    Document.index
      ⟨Option.none, some (fun _ => .error (.Other 4)), some ⟨"t", "r1"⟩, true, false,
        [⟨"i", "t", [⟨[.field "f"]⟩], .Uniq⟩]⟩
      ⟨"n", "d", true, true⟩ 5 ⟨[], []⟩ = (.err (.Other 4), ⟨[], []⟩) ∧
    Document.index
      ⟨Option.none, Option.none, some ⟨"t", "r1"⟩, true, false,
        [⟨"ft", "t", [⟨[.field "f"]⟩], .Search ⟨"en"⟩⟩]⟩
      ⟨"n", "d", true, true⟩ 5 ⟨[.err (.Other 6)], []⟩ =
      (.err (.Other 6), ⟨[], [.getAnalyzer "en"]⟩) := by
  refine ⟨?_, ?_, ?_, ?_, ?_, ?_⟩
  · exact C3_error_propagation_policy.1 ⟨"n", "d", true, true⟩
      ⟨"i", "t", [⟨[.field "f"]⟩], .Uniq⟩ ⟨"t", "r1"⟩ [Value.int 1] 3
      ⟨[.err .TxConditionNotMet], []⟩
      (by intro r hr e h; simp at hr; subst hr; injection h with h; exact h.symm)
  · exact C3_error_propagation_policy.2.1 ⟨"n", "d", true, true⟩ "i" "t"
      ⟨[.field "f"]⟩ .Uniq ⟨"t", "r2"⟩ ⟨"t", "r1"⟩ (Value.int 9) (.Other 5) [] [] 2
      (fun _ h => Value.noConfusion h) (by decide)
  · exact C3_error_propagation_policy.2.2.1 ⟨"n", "d", true, true⟩ "i" "t"
      ⟨[.field "f"]⟩ .Uniq ⟨"t", "r1"⟩ (Value.int 1) (.Other 7) [] [] 2
      (fun _ h => Value.noConfusion h) (by simp)
  · exact C3_error_propagation_policy.2.2.2.1 _ _ _ [] ⟨"t", "r1"⟩ (.Other 3) 5
      ⟨[], []⟩ rfl rfl rfl rfl rfl rfl
  · exact C3_error_propagation_policy.2.2.2.2.1 _ _ _ [] ⟨"t", "r1"⟩ (.Other 4)
      Option.none 5 ⟨[], []⟩ rfl rfl rfl rfl rfl rfl rfl
  · exact C3_error_propagation_policy.2.2.2.2.2 _ _ ⟨"en"⟩ _ [] ⟨"t", "r1"⟩
      (.Other 6) Option.none Option.none 5 [] [] rfl rfl rfl rfl rfl rfl rfl rfl

/-- With `force` unset, a definition whose old and new extracted values agree
is skipped entirely: the loop touches nothing. -/
theorem indexLoop_no_change (opt : Options) (doc : Document) (rid : Thing)
    (fuel : Nat) (hfo : opt.force = false) :
    ∀ (ixs : List DefineIndexStatement) (txn : Txn),
      (∀ ix ∈ ixs, ∃ v, build_opt_values ix doc.initial = .ok v ∧
        build_opt_values ix doc.current = .ok v) →
      indexLoop opt doc rid fuel ixs txn = (.ok, txn) := by
  intro ixs
  induction ixs with
  | nil => intro txn h; rfl
  | cons ix rest ih =>
    intro txn h
    obtain ⟨v, h1, h2⟩ := h ix (List.mem_cons_self ix rest)
    unfold indexLoop
    rw [h1, h2]
    dsimp only
    rw [if_neg (by simp [hfo])]
    exact ih txn (fun ix2 hix2 => h ix2 (List.mem_cons_of_mem _ hix2))

/-- C7: the gates of `maintain` — (1) indexing globally suppressed, (2)
unforced and unchanged, (3) table is a view: each returns ok with the
transaction untouched (zero storage operations); (4) with `force` unset, if
every definition extracts identical old and new values, `maintain` is a
complete no-op; and (5) when the write condition `force ∨ old ≠ new` holds
for the (single) definition and the gates pass, `maintain` is exactly the
per-definition dispatch (the write phase runs). -/
theorem C7_gates_and_no_op_frame :
    (∀ (doc : Document) (opt : Options) (fuel : Nat) (txn : Txn),
      opt.indexes = false → doc.index opt fuel txn = (.ok, txn)) ∧
    (∀ (doc : Document) (opt : Options) (fuel : Nat) (txn : Txn),
      opt.force = false → doc.changed = false →
      doc.index opt fuel txn = (.ok, txn)) ∧
    (∀ (doc : Document) (opt : Options) (fuel : Nat) (txn : Txn),
      doc.tb_drop = true → doc.index opt fuel txn = (.ok, txn)) ∧
    (∀ (doc : Document) (opt : Options) (rid : Thing) (fuel : Nat) (txn : Txn),
      opt.force = false → doc.id = some rid →
      (∀ ix ∈ doc.indexes, ∃ v, build_opt_values ix doc.initial = .ok v ∧
        build_opt_values ix doc.current = .ok v) →
      doc.index opt fuel txn = (.ok, txn)) ∧
    (∀ (doc : Document) (opt : Options) (ix : DefineIndexStatement) (rid : Thing)
       (o n : Option (List Value)) (fuel : Nat) (txn : Txn),
      opt.indexes = true → (opt.force = true ∨ doc.changed = true) →
      doc.tb_drop = false → doc.id = some rid → doc.indexes = [ix] →
      build_opt_values ix doc.initial = .ok o →
      build_opt_values ix doc.current = .ok n →
      (opt.force = true ∨ o ≠ n) →
      doc.index opt fuel txn = dispatchIndex opt ix o n rid fuel txn) := by
  refine ⟨?_, ?_, ?_, ?_, ?_⟩
  · intro doc opt fuel txn h
    simp [Document.index, h]
  · intro doc opt fuel txn h1 h2
    cases hI : opt.indexes <;> simp [Document.index, h1, h2, hI]
  · intro doc opt fuel txn h
    cases hI : opt.indexes <;> cases hF : opt.force <;> cases hC : doc.changed <;>
      simp [Document.index, h, hI, hF, hC]
  · intro doc opt rid fuel txn hfo hid h
    cases hI : opt.indexes with
    | false => simp [Document.index, hI]
    | true =>
      cases hC : doc.changed with
      | false => simp [Document.index, hI, hfo, hC]
      | true =>
        cases hD : doc.tb_drop with
        | true => simp [Document.index, hI, hfo, hC, hD]
        | false =>
          simp only [Document.index, hI, hfo, hC, hD, hid, Bool.not_true,
            Bool.not_false, Bool.and_self, if_true, if_false, Bool.true_eq_false,
            Bool.false_eq_true]
          exact indexLoop_no_change opt doc rid fuel hfo doc.indexes txn h
  · intro doc opt ix rid o n fuel txn hI hFC hD hid hixs ho hn hcond
    have hgate2 : (!opt.force && !doc.changed) = false := by
      rcases hFC with h | h <;> simp [h]
    simp only [Document.index, hI, hD, hid, hixs, hgate2, Bool.not_true,
      if_false, Bool.false_eq_true, if_true]
    simp only [indexLoop, ho, hn, if_pos hcond]
    rcases hdp : dispatchIndex opt ix o n rid fuel txn with ⟨r, txn1⟩
    cases r <;> rfl

/-- Witness for C7: each gate at a concrete record — suppression, unchanged,
view table, identical extracted values, and a forced dispatch. -/
theorem C7_gates_and_no_op_frame_witness :
    Document.index
      ⟨Option.none, Option.none, some ⟨"t", "r"⟩, true, false,
        [⟨"i", "t", [⟨[.field "f"]⟩], .Uniq⟩]⟩ ⟨"n", "d", false, true⟩ 5 ⟨[], []⟩
      = (.ok, ⟨[], []⟩) ∧
    Document.index
      ⟨Option.none, Option.none, some ⟨"t", "r"⟩, false, false,
        [⟨"i", "t", [⟨[.field "f"]⟩], .Uniq⟩]⟩ ⟨"n", "d", true, false⟩ 5 ⟨[], []⟩
      = (.ok, ⟨[], []⟩) ∧
    Document.index
      ⟨Option.none, Option.none, some ⟨"t", "r"⟩, true, true,
        [⟨"i", "t", [⟨[.field "f"]⟩], .Uniq⟩]⟩ ⟨"n", "d", true, true⟩ 5 ⟨[], []⟩
      = (.ok, ⟨[], []⟩) ∧
    Document.index
      ⟨some (fun _ => .ok (Value.int 1)), some (fun _ => .ok (Value.int 1)),
        some ⟨"t", "r"⟩, true, false, [⟨"i", "t", [⟨[.field "f"]⟩], .Uniq⟩]⟩
      ⟨"n", "d", true, false⟩ 5 ⟨[], []⟩ = (.ok, ⟨[], []⟩) ∧
    Document.index
      ⟨Option.none, some (fun _ => .ok (Value.int 2)), some ⟨"t", "r"⟩, true, false,
        [⟨"i", "t", [⟨[.field "f"]⟩], .Uniq⟩]⟩ ⟨"n", "d", true, true⟩ 5 ⟨[], []⟩
      = dispatchIndex ⟨"n", "d", true, true⟩ ⟨"i", "t", [⟨[.field "f"]⟩], .Uniq⟩
          Option.none (some [Value.int 2]) ⟨"t", "r"⟩ 5 ⟨[], []⟩ := by
  refine ⟨?_, ?_, ?_, ?_, ?_⟩
  · exact C7_gates_and_no_op_frame.1 _ _ 5 ⟨[], []⟩ rfl
  · exact C7_gates_and_no_op_frame.2.1 _ _ 5 ⟨[], []⟩ rfl rfl
  · exact C7_gates_and_no_op_frame.2.2.1 _ _ 5 ⟨[], []⟩ rfl
  · exact C7_gates_and_no_op_frame.2.2.2.1 _ _ ⟨"t", "r"⟩ 5 ⟨[], []⟩ rfl rfl
      (by intro ix hix; simp at hix; subst hix; exact ⟨some [Value.int 1], rfl, rfl⟩)
  · exact C7_gates_and_no_op_frame.2.2.2.2 _ _ _ ⟨"t", "r"⟩ Option.none
      (some [Value.int 2]) 5 ⟨[], []⟩ rfl (.inl rfl) rfl rfl rfl rfl rfl (.inl rfl)

/-- On lengths in `usize` range, the wrapping subtraction is the plain one. -/
theorem usizeSub1_eq (n : Nat) (h1 : 1 ≤ n) (h2 : n < USIZE) :
    usizeSub1 n = n - 1 := by
  have hU : USIZE = 18446744073709551616 := by norm_num [USIZE]
  unfold usizeSub1
  rw [hU] at h2 ⊢
  omega

/-- Advancing a well-formed iterator: well-formedness is preserved, the
capacity drops by one, and the advance succeeds exactly when capacity
remains. -/
theorem next_spec (i : ValuesIterator) (h : i.Wf) :
    (i.next.2).Wf ∧ (i.next.2).capacity = i.capacity - 1 ∧
    (i.next.1 = true ↔ 0 < i.capacity) := by
  cases i with
  | single v =>
    exact ⟨trivial, rfl, by simp [ValuesIterator.next, ValuesIterator.capacity]⟩
  | multi m =>
    obtain ⟨hne, hcur, hlen⟩ := h
    have hlen1 : 1 ≤ m.vals.length := List.length_pos.mpr hne
    have hsub : usizeSub1 m.vals.length = m.vals.length - 1 :=
      usizeSub1_eq _ hlen1 hlen
    have hm : (ValuesIterator.multi m).next = ((m.next).1, .multi (m.next).2) := rfl
    rw [hm]
    by_cases hd : m.done = true
    · have h1 : m.next = (false, m) := by
        unfold MultiValuesIterator.next
        rw [if_pos hd]
      rw [h1]
      exact ⟨⟨hne, hcur, hlen⟩, by simp [ValuesIterator.capacity, hd],
        by simp [ValuesIterator.capacity, hd]⟩
    · have hd2 : m.done = false := by rwa [Bool.not_eq_true] at hd
      by_cases hc : m.current = m.vals.length - 1
      · have h1 : m.next = (false, { m with done := true }) := by
          unfold MultiValuesIterator.next
          rw [if_neg hd, hsub, if_pos hc]
        rw [h1]
        refine ⟨⟨hne, hcur, hlen⟩, ?_, ?_⟩
        · simp [ValuesIterator.capacity, hd2]
          omega
        · simp [ValuesIterator.capacity, hd2]
          omega
      · have h1 : m.next = (true, { m with current := (m.current + 1) % USIZE }) := by
          unfold MultiValuesIterator.next
          rw [if_neg hd, hsub, if_neg hc]
        have hmod : (m.current + 1) % USIZE = m.current + 1 := by
          apply Nat.mod_eq_of_lt
          omega
        rw [h1]
        refine ⟨⟨hne, ?_, hlen⟩, ?_, ?_⟩
        · simp only [hmod]
          omega
        · simp [ValuesIterator.capacity, hd2, hmod]
          omega
        · simp [ValuesIterator.capacity, hd2]
          omega

/-- A step entered with the advance already done just snapshots: it returns
the current tuple and the iterators untouched. -/
theorem combineStep_true (l : List ValuesIterator) :
    combineStep l true = (l.map ValuesIterator.current, true, l) := by
  induction l with
  | nil => rfl
  | cons i rest ih => simp [combineStep, ih]

/-- A full step over well-formed iterators: the tuple is the snapshot of the
current elements, well-formedness and length are preserved, the total
capacity drops by one, and the step reports more to come exactly when some
capacity was left. -/
theorem combineStep_false_spec (l : List ValuesIterator) (hw : ∀ i ∈ l, i.Wf) :
    (combineStep l false).1 = l.map ValuesIterator.current ∧
    (∀ i ∈ (combineStep l false).2.2, i.Wf) ∧
    totalCap (combineStep l false).2.2 = totalCap l - 1 ∧
    ((combineStep l false).2.1 = true ↔ 0 < totalCap l) ∧
    (combineStep l false).2.2.length = l.length := by
  induction l with
  | nil => simp [combineStep, totalCap]
  | cons i rest ih =>
    have hwi : i.Wf := hw i (List.mem_cons_self i rest)
    have hwr : ∀ j ∈ rest, j.Wf := fun j hj => hw j (List.mem_cons_of_mem _ hj)
    obtain ⟨hw2, hcap2, hb⟩ := next_spec i hwi
    unfold combineStep
    rcases hn : i.next with ⟨b, i2⟩
    rw [hn] at hw2 hcap2 hb
    dsimp only at hw2 hcap2 hb ⊢
    cases b with
    | true =>
      rw [if_neg Bool.false_ne_true, combineStep_true rest]
      dsimp only
      have hcapi : 0 < i.capacity := hb.mp rfl
      refine ⟨rfl, ?_, ?_, ?_, rfl⟩
      · intro j hj
        rcases List.mem_cons.mp hj with rfl | hj
        · exact hw2
        · exact hwr j hj
      · simp only [totalCap, List.map_cons, List.sum_cons] at *
        omega
      · simp only [totalCap, List.map_cons, List.sum_cons]
        constructor
        · intro _; omega
        · intro _; trivial
    | false =>
      rw [if_neg Bool.false_ne_true]
      obtain ⟨r1, r2, r3, r4, r5⟩ := ih hwr
      have hcapi : i.capacity = 0 := by
        by_contra hne
        have := hb.mpr (Nat.pos_of_ne_zero hne)
        simp at this
      rcases hrec : combineStep rest false with ⟨o2, hn2, its2⟩
      rw [hrec] at r1 r2 r3 r4 r5
      dsimp only at r1 r2 r3 r4 r5 ⊢
      refine ⟨by rw [r1]; rfl, ?_, ?_, ?_, by simp [r5]⟩
      · intro j hj
        rcases List.mem_cons.mp hj with rfl | hj
        · exact hw2
        · exact r2 j hj
      · simp only [totalCap, List.map_cons, List.sum_cons] at r3 ⊢
        omega
      · simp only [totalCap, List.map_cons, List.sum_cons] at r4 ⊢
        rw [r4]
        omega

/-- A single-value iterator at position `j` stays a single-value iterator at
position `j` across a step. -/
theorem combineStep_single_stable (l : List ValuesIterator) (b : Bool) (j : Nat)
    (v : Value) (h : l[j]? = some (.single v)) :
    ((combineStep l b).2.2)[j]? = some (.single v) := by
  induction l generalizing b j with
  | nil => simp at h
  | cons i rest ih =>
    cases b with
    | true => rw [combineStep_true]; exact h
    | false =>
      unfold combineStep
      rw [if_neg Bool.false_ne_true]
      rcases hn : i.next with ⟨bb, i2⟩
      dsimp only
      cases j with
      | zero =>
        simp only [List.getElem?_cons_zero, Option.some_inj] at h
        subst h
        have hred : ValuesIterator.next (.single v) = (false, .single v) := rfl
        rw [hred] at hn
        cases hn
        simp
      | succ j =>
        simp only [List.getElem?_cons_succ] at h ⊢
        exact ih bb j h

/-- Driving a well-formed combinator with enough fuel: it yields exactly
`totalCap + 1` tuples, each as long as the column list, and every tuple holds
`v` at each position owned by a single-value iterator on `v`. -/
theorem take_spec :
    ∀ (fuel : Nat) (c : Combinator),
      (∀ i ∈ c.iterators, i.Wf) → c.has_next = true →
      totalCap c.iterators + 1 ≤ fuel →
      (Combinator.take fuel c).length = totalCap c.iterators + 1 ∧
      ∀ t ∈ Combinator.take fuel c,
        t.length = c.iterators.length ∧
        ∀ (j : Nat) (v : Value),
          c.iterators[j]? = some (ValuesIterator.single v) → t[j]? = some v := by
  intro fuel
  induction fuel with
  | zero => intro c hw hh hf; omega
  | succ fuel ih =>
    intro c hw hh hf
    obtain ⟨s1, s2, s3, s4, s5⟩ := combineStep_false_spec c.iterators hw
    rcases hcs : combineStep c.iterators false with ⟨o, hn, its⟩
    rw [hcs] at s1 s2 s3 s4 s5
    dsimp only at s1 s2 s3 s4 s5
    have hnext : c.next = (some o, ⟨its, hn⟩) := by
      unfold Combinator.next
      rw [if_pos hh, hcs]
    have htake : Combinator.take (fuel + 1) c = o :: Combinator.take fuel ⟨its, hn⟩ := by
      simp only [Combinator.take]
      rw [hnext]
    have hhead : ∀ (j : Nat) (v : Value),
        c.iterators[j]? = some (ValuesIterator.single v) → o[j]? = some v := by
      intro j v hj
      rw [s1, List.getElem?_map, hj]
      rfl
    have holen : o.length = c.iterators.length := by
      rw [s1, List.length_map]
    by_cases hcap : totalCap c.iterators = 0
    · have hhn : hn = false := by
        cases hn with
        | false => rfl
        | true => have := s4.mp rfl; omega
      subst hhn
      rw [htake, take_stuck fuel ⟨its, false⟩ rfl]
      refine ⟨by simp [hcap], ?_⟩
      intro t ht
      rcases List.mem_singleton.mp ht with rfl
      exact ⟨holen, hhead⟩
    · have hhn : hn = true := s4.mpr (Nat.pos_of_ne_zero hcap)
      subst hhn
      have hf2 : totalCap its + 1 ≤ fuel := by omega
      obtain ⟨ihlen, ihmem⟩ := ih ⟨its, true⟩ s2 rfl hf2
      rw [htake]
      refine ⟨by simp only [List.length_cons, ihlen]; omega, ?_⟩
      intro t ht
      rcases List.mem_cons.mp ht with rfl | ht
      · exact ⟨holen, hhead⟩
      · obtain ⟨hl, hs⟩ := ihmem t ht
        refine ⟨by rw [hl]; exact s5, ?_⟩
        intro j v hj
        have hst := combineStep_single_stable c.iterators false j v hj
        rw [hcs] at hst
        exact hs j v hst

/-- A good column's fresh iterator is well-formed. -/
theorem mkIterator_wf (p : Value × Bool) (h : goodColumn p = true) :
    (mkIterator p).Wf := by
  obtain ⟨v, f⟩ := p
  cases f with
  | true => simp [mkIterator, ValuesIterator.Wf]
  | false =>
    cases v with
    | null => simp [mkIterator, ValuesIterator.Wf]
    | none => simp [mkIterator, ValuesIterator.Wf]
    | int _ => simp [mkIterator, ValuesIterator.Wf]
    | str _ => simp [mkIterator, ValuesIterator.Wf]
    | array a =>
      simp only [goodColumn, Bool.and_eq_true, Bool.not_eq_true',
        List.isEmpty_eq_false, decide_eq_true_eq] at h
      refine ⟨h.1, ?_, h.2⟩
      have := List.length_pos.mpr h.1
      simpa [mkIterator] using this

/-- A fresh column iterator's capacity is the column's capacity. -/
theorem mkIterator_capacity (p : Value × Bool) :
    (mkIterator p).capacity = colCap p := by
  obtain ⟨v, f⟩ := p
  cases f <;> cases v <;> simp [mkIterator, colCap, ValuesIterator.capacity]

/-- The fresh combinator's total capacity is the sum of the column
capacities. -/
theorem totalCap_new (source : List (Value × Bool)) :
    totalCap (source.map mkIterator) = (source.map colCap).sum := by
  induction source with
  | nil => rfl
  | cons p rest ih =>
    simp only [List.map_cons, totalCap, List.sum_cons] at ih ⊢
    rw [mkIterator_capacity p, ih]

/-- C1 (amended): for good columns (non-flattened arrays nonempty), the
Combinator yields exactly `(Σ (cᵢ - 1)) + 1 = Σ cᵢ - (k - 1)` tuples — the
staircase, not the `∏ cᵢ` Cartesian product — each of the tuples as long as
the column list, and single-iterator columns contribute their one fixed value
to every tuple. -/
theorem C1_staircase_not_product (source : List (Value × Bool)) (fuel : Nat)
    (hgood : ∀ p ∈ source, goodColumn p = true)
    (hfuel : (source.map colCap).sum + 1 ≤ fuel) :
    (Combinator.take fuel (Combinator.new source)).length
        = (source.map colCap).sum + 1 ∧
    ∀ t ∈ Combinator.take fuel (Combinator.new source),
      t.length = source.length ∧
      ∀ (j : Nat) (v : Value) (f : Bool),
        source[j]? = some (v, f) → mkIterator (v, f) = .single v →
        t[j]? = some v := by
  have hw : ∀ i ∈ (Combinator.new source).iterators, i.Wf := by
    intro i hi
    simp only [Combinator.new, List.mem_map] at hi
    obtain ⟨p, hp, rfl⟩ := hi
    exact mkIterator_wf p (hgood p hp)
  have hcap : totalCap (Combinator.new source).iterators = (source.map colCap).sum :=
    totalCap_new source
  obtain ⟨h1, h2⟩ := take_spec fuel (Combinator.new source) hw rfl
    (by rw [hcap]; exact hfuel)
  refine ⟨by rw [h1, hcap], ?_⟩
  intro t ht
  obtain ⟨hl, hs⟩ := h2 t ht
  refine ⟨by rw [hl]; simp [Combinator.new], ?_⟩
  intro j v f hj hsingle
  apply hs j v
  simp only [Combinator.new, List.getElem?_map, hj]
  simp [hsingle]

/-- Witness for C1 (amended): columns `[1,2]`, scalar `7`, `[3,4]` yield
`(2-1) + 0 + (2-1) + 1 = 3` tuples, each of length 3 with `7` in the middle
position. -/
theorem C1_staircase_not_product_witness :
    (Combinator.take 10 (Combinator.new
        [(Value.array [Value.int 1, Value.int 2], false), (Value.int 7, false),
         (Value.array [Value.int 3, Value.int 4], false)])).length
      = ([(Value.array [Value.int 1, Value.int 2], false), (Value.int 7, false),
          (Value.array [Value.int 3, Value.int 4], false)].map colCap).sum + 1 ∧
    ∀ t ∈ Combinator.take 10 (Combinator.new
        [(Value.array [Value.int 1, Value.int 2], false), (Value.int 7, false),
         (Value.array [Value.int 3, Value.int 4], false)]),
      t.length = [(Value.array [Value.int 1, Value.int 2], false),
        (Value.int 7, false),
        (Value.array [Value.int 3, Value.int 4], false)].length ∧
      ∀ (j : Nat) (v : Value) (f : Bool),
        [(Value.array [Value.int 1, Value.int 2], false), (Value.int 7, false),
          (Value.array [Value.int 3, Value.int 4], false)][j]? = some (v, f) →
        mkIterator (v, f) = .single v → t[j]? = some v :=
  C1_staircase_not_product
    [(Value.array [Value.int 1, Value.int 2], false), (Value.int 7, false),
     (Value.array [Value.int 3, Value.int 4], false)] 10 (by decide) (by decide)

end SIdx